import Mathlib

/-
Verification of the write-side bit-accumulation engine (src/write.rs):
the direct-sink backend (BitWriter), the counting backend (BitCounter)
and the recording backend (BitRecorder), all implementing one shared
write contract.  Machine integers are modelled as natural numbers with
an explicit bit-width parameter; the byte sink is modelled as the list
of bytes written so far (a growable byte buffer, which never fails).
-/

set_option maxHeartbeats 1000000

namespace Bitstream

/-- Error kind of the write contract in this model: only the
invalid-input error can occur, because the modelled byte sink (a
growable byte buffer) never fails. -/
inductive WriteError
  | invalidInput
deriving DecidableEq, Repr

/-- Result of a mutating write-contract call: the receiver state after
the call (unchanged when the call aborts before mutating) together with
an optional error, mirroring a Rust method on a mutable receiver that
returns a Result. -/
abbrev WResult (σ : Type) := σ × Option WriteError

/-- Sequencing of two fallible calls on a mutable receiver: run the
second call only when the first succeeded, otherwise keep the state and
error of the first failure. -/
def andThen {σ : Type} (r : WResult σ) (f : σ → WResult σ) : WResult σ :=
  match r with
  | (s, none) => f s
  | (s, some e) => (s, some e)

/-- Bit-ordering strategy: most-significant-bit-first (BigEndian) or
least-significant-bit-first (LittleEndian); chosen once per writer. -/
inductive Endianness
  | BE
  | LE
deriving DecidableEq, Repr

/-- Modelled from the spec: the bit accumulator of section 4.1 (the
BitQueue type of the library root, which is not under src).  A
bit-length together with a packed value whose bits beyond the length
are always zero.  The carrier width is left implicit (values are
natural numbers); push callers guarantee no overflow past the carrier
width, as section 4.1 states. -/
structure BitQueue where
  len : Nat
  val : Nat
deriving DecidableEq, Repr

/-- Modelled from the spec: push appends the low n bits of v after the
existing content (sections 3 and 4.1).  MSB-first places earlier bits
in higher-order positions, LSB-first in lower-order positions, matching
the doc-test examples of src/write.rs. -/
def BitQueue.push (E : Endianness) (q : BitQueue) (n v : Nat) : BitQueue :=
  match E with
  | .BE => ⟨q.len + n, q.val * 2 ^ n + v⟩
  | .LE => ⟨q.len + n, q.val + v * 2 ^ q.len⟩

/-- Modelled from the spec: pop removes and returns the n bits nearest
the front of the queue (the earliest-pushed bits) per the strategy;
popping at least the whole length drains the queue (section 4.1). -/
def BitQueue.pop (E : Endianness) (q : BitQueue) (n : Nat) : Nat × BitQueue :=
  match E with
  | .BE => (q.val / 2 ^ (q.len - n), ⟨q.len - n, q.val % 2 ^ (q.len - n)⟩)
  | .LE => (q.val % 2 ^ n, ⟨q.len - n, q.val / 2 ^ n⟩)

/-- Queue seeded with the full bits-length value (BitQueue::from_value). -/
def BitQueue.from_value (value bits : Nat) : BitQueue := ⟨bits, value⟩

/-- Emptiness query of the accumulator. -/
def BitQueue.is_empty (q : BitQueue) : Bool := q.len == 0

/-- Remaining room of the u8-carrier partial-byte accumulator. -/
def BitQueue.remaining_len (q : BitQueue) : Nat := 8 - q.len

/-- Direct-sink backend state (BitWriter of src/write.rs): the byte sink,
modelled as the list of bytes emitted so far, plus the partial-byte
accumulator. -/
structure BitWriter where
  out : List Nat
  bitqueue : BitQueue
deriving DecidableEq, Repr

/-- Fresh direct-sink writer over an empty byte buffer. -/
def BitWriter.fresh : BitWriter := ⟨[], ⟨0, 0⟩⟩

/-- The write_byte helper of src/write.rs: emit one byte to the sink. -/
def write_byte (out : List Nat) (b : Nat) : List Nat := out ++ [b]

/-- BitWriter::write_bit (src/write.rs lines 421-428): push one bit into
the partial accumulator and, when it becomes full at 8 bits, pop the
completed byte and emit it to the sink. -/
def BitWriter.write_bit (E : Endianness) (s : BitWriter) (bit : Bool) :
    WResult BitWriter :=
  let q := s.bitqueue.push E 1 (if bit then 1 else 0)
  if q.len == 8 then
    let p := q.pop E 8
    (⟨write_byte s.out p.1, p.2⟩, none)
  else
    (⟨s.out, q⟩, none)

/-- The write_unaligned helper of src/write.rs (lines 968-990): when the
partial accumulator rem is non-empty, transfer min(8 - rem.len, acc.len)
bits from the front of acc into rem, and emit a byte when rem reaches 8
bits.  Returns the sink, the remaining acc and the remaining rem. -/
def write_unaligned (E : Endianness) (out : List Nat) (acc rem : BitQueue) :
    List Nat × BitQueue × BitQueue :=
  if rem.is_empty then (out, acc, rem)
  else
    let t := min (8 - rem.len) acc.len
    let p := acc.pop E t
    let rem2 := rem.push E t (p.1 % 256)
    if rem2.len == 8 then
      let p2 := rem2.pop E 8
      (write_byte out p2.1, p.2, p2.2)
    else
      (out, p.2, rem2)

/-- Loop body of the write_aligned helper of src/write.rs (lines
992-1009): pop 8 bits at a time from the front of acc into the byte
buffer; the buffer is then written to the sink in pop order. -/
def write_aligned_go (E : Endianness) : Nat → List Nat → BitQueue → List Nat × BitQueue
  | 0, out, acc => (out, acc)
  | k + 1, out, acc =>
    let p := acc.pop E 8
    write_aligned_go E k (write_byte out (p.1 % 256)) p.2

/-- The write_aligned helper of src/write.rs: emit acc.len / 8 whole
bytes from the front of acc. -/
def write_aligned (E : Endianness) (out : List Nat) (acc : BitQueue) :
    List Nat × BitQueue :=
  write_aligned_go E (acc.len / 8) out acc

/-- BitWriter::write (src/write.rs lines 464-488).  The parameter w is
the bit width of the unsigned value type U.  Validation first: an
invalid-input error when bits exceeds w, or when bits is below w and the
value needs more than bits bits.  Fast path: when bits is strictly below
the remaining room of the partial accumulator, push and return.  Slow
path: seed a wide accumulator with the value, fill the partial byte and
emit it, emit whole bytes, and carry the remainder over. -/
def BitWriter.write (E : Endianness) (s : BitWriter) (w bits value : Nat) :
    WResult BitWriter :=
  if w < bits then (s, some .invalidInput)
  else if bits < w ∧ 2 ^ bits ≤ value then (s, some .invalidInput)
  else if bits < s.bitqueue.remaining_len then
    (⟨s.out, s.bitqueue.push E bits (value % 256)⟩, none)
  else
    let acc := BitQueue.from_value value bits
    let r1 := write_unaligned E s.out acc s.bitqueue
    let r2 := write_aligned E r1.1 r1.2.1
    (⟨r2.1, r1.2.2.push E r2.2.len (r2.2.val % 256)⟩, none)

/-- Modelled from the spec: the fit validation of write_signed, which
lives in Endianness::write_signed of the library root (not under src).
Per sections 4.2 and 7, it is the same validation as write adapted for
the signed range: bits above the width w of the signed type, or a value
outside the twos-complement range of bits bits, is invalid input. -/
def signed_invalid (w bits : Nat) (v : Int) : Prop :=
  w < bits ∨ (bits < w ∧ (v < -(2 ^ (bits - 1) : Int) ∨ (2 ^ (bits - 1) : Int) ≤ v))

instance (w bits : Nat) (v : Int) : Decidable (signed_invalid w bits v) := by
  unfold signed_invalid; exact inferInstance

/-- Low-order bits of the twos-complement pattern: the bits - 1 low bits
of the twos-complement representation of v in bits bits. -/
def twos_low (bits : Nat) (v : Int) : Nat := (v % (2 ^ (bits - 1) : Int)).toNat

/-- Modelled from the spec: Endianness::write_signed of the library root
is not under src.  Per sections 4.2, 4.3 and the worked example of
section 8, the twos-complement representation of v in bits bits is
emitted per the strategy through the write contract itself: MSB-first
writes the sign bit then the bits - 1 remaining twos-complement bits;
LSB-first writes the bits - 1 low bits then the sign bit.  Validation
runs before any bit is written. -/
def BitWriter.write_signed (E : Endianness) (s : BitWriter) (w bits : Nat)
    (v : Int) : WResult BitWriter :=
  if signed_invalid w bits v then (s, some .invalidInput)
  else
    match E with
    | .BE => andThen (s.write_bit .BE (decide (v < 0)))
        (fun s2 => s2.write .BE w (bits - 1) (twos_low bits v))
    | .LE => andThen (s.write .LE w (bits - 1) (twos_low bits v))
        (fun s2 => s2.write_bit .LE (decide (v < 0)))

/-- BitWrite::byte_aligned for BitWriter (src/write.rs lines 536-539):
true exactly when the partial accumulator is empty. -/
def BitWriter.byte_aligned (s : BitWriter) : Bool := s.bitqueue.is_empty

/-- Per-byte fallback of BitWriter::write_bytes: write each byte in turn
through write(8, b), stopping at the first failure. -/
def write_bytes_loop (E : Endianness) : BitWriter → List Nat → WResult BitWriter
  | s, [] => (s, none)
  | s, b :: rest =>
    andThen (s.write E 8 8 b) (fun s2 => write_bytes_loop E s2 rest)

/-- BitWriter::write_bytes (src/write.rs lines 516-523): when the stream
is byte-aligned the whole buffer is forwarded to the sink in one call,
otherwise each byte goes through write(8, b). -/
def BitWriter.write_bytes (E : Endianness) (s : BitWriter) (buf : List Nat) :
    WResult BitWriter :=
  if s.byte_aligned then (⟨s.out ++ buf, s.bitqueue⟩, none)
  else write_bytes_loop E s buf

/-- Loop of the default byte_align method (src/write.rs lines 369-374):
write zero bits until aligned.  The loop runs at most 7 times for any
state satisfying the writer invariant, so a bound of 8 steps models the
source loop exactly on such states. -/
def byte_align_go (E : Endianness) : Nat → BitWriter → BitWriter
  | 0, s => s
  | fuel + 1, s =>
    if s.byte_aligned then s
    else byte_align_go E fuel (s.write_bit E false).1

/-- BitWrite::byte_align for BitWriter: pad with zero bits up to the
next byte boundary; a no-op when already aligned. -/
def BitWriter.byte_align (E : Endianness) (s : BitWriter) : WResult BitWriter :=
  (byte_align_go E 8 s, none)

/-- BitWriter::into_writer (src/write.rs lines 116-119): dispose of the
writer and hand back the sink; pending partial bits are discarded. -/
def BitWriter.into_writer (s : BitWriter) : List Nat := s.out

/-- BitWriter::into_unwritten (src/write.rs lines 184-187): the pending
partial-byte content as a (bits, value) pair. -/
def BitWriter.into_unwritten (s : BitWriter) : Nat × Nat :=
  (s.bitqueue.len, s.bitqueue.val)

/-- BitWrite::write_unary0 (src/write.rs lines 282-305): value one-bits
then a terminating zero-bit.  Counts up to 31 use a 32-bit all-ones
pattern, 32 the full 32-bit pattern, 33 to 63 a 64-bit pattern, 64 the
full 64-bit pattern; larger counts write 64 one-bits per loop iteration
until at most 64 remain, then finish recursively. -/
def BitWriter.write_unary0 (E : Endianness) (s : BitWriter) (value : Nat) :
    WResult BitWriter :=
  if value = 0 then s.write_bit E false
  else if value ≤ 31 then
    andThen (s.write E 32 value (2 ^ value - 1)) (fun s2 => s2.write_bit E false)
  else if value = 32 then
    andThen (s.write E 32 32 (2 ^ 32 - 1)) (fun s2 => s2.write_bit E false)
  else if value ≤ 63 then
    andThen (s.write E 64 value (2 ^ value - 1)) (fun s2 => s2.write_bit E false)
  else if value = 64 then
    andThen (s.write E 64 64 (2 ^ 64 - 1)) (fun s2 => s2.write_bit E false)
  else
    andThen (s.write E 64 64 (2 ^ 64 - 1)) (fun s2 => s2.write_unary0 E (value - 64))
termination_by value
decreasing_by simp_wf; omega

/-- Counting backend state (BitCounter of src/write.rs): only the
running total of bits written.  The count type N is modelled as an
unbounded natural, matching the caller-chooses-a-wide-enough-width
contract of section 3. -/
abbrev BitCounter := Nat

/-- BitCounter write_bit (src/write.rs lines 618-622): count one bit. -/
def BitCounter.write_bit (c : Nat) (_bit : Bool) : Nat × Option WriteError :=
  (c + 1, none)

/-- BitCounter write (src/write.rs lines 624-642): identical validation
to the direct backend, then add bits to the total. -/
def BitCounter.write (c : Nat) (w bits value : Nat) : Nat × Option WriteError :=
  if w < bits then (c, some .invalidInput)
  else if bits < w ∧ 2 ^ bits ≤ value then (c, some .invalidInput)
  else (c + bits, none)

/-- BitCounter write_signed (src/write.rs lines 644-650) delegates to
Endianness::write_signed over the counter itself; the signed packing is
modelled from the spec exactly as for the direct backend. -/
def BitCounter.write_signed (E : Endianness) (c : Nat) (w bits : Nat)
    (v : Int) : Nat × Option WriteError :=
  if signed_invalid w bits v then (c, some .invalidInput)
  else
    match E with
    | .BE => andThen (BitCounter.write_bit c (decide (v < 0)))
        (fun c2 => BitCounter.write c2 w (bits - 1) (twos_low bits v))
    | .LE => andThen (BitCounter.write c w (bits - 1) (twos_low bits v))
        (fun c2 => BitCounter.write_bit c2 (decide (v < 0)))

/-- BitCounter write_bytes (src/write.rs lines 652-656): add eight bits
per byte; no validation is needed for raw bytes. -/
def BitCounter.write_bytes (c : Nat) (buf : List Nat) : Nat × Option WriteError :=
  (c + 8 * buf.length, none)

/-- BitCounter byte_aligned (src/write.rs lines 658-661). -/
def BitCounter.byte_aligned (c : Nat) : Bool := c % 8 == 0

/-- Loop of the default byte_align method over the counter. -/
def byte_align_go_counter : Nat → Nat → Nat
  | 0, c => c
  | fuel + 1, c =>
    if BitCounter.byte_aligned c then c else byte_align_go_counter fuel (c + 1)

/-- BitCounter byte_align: pad the count up to a multiple of 8. -/
def BitCounter.byte_align (c : Nat) : Nat × Option WriteError :=
  (byte_align_go_counter 8 c, none)

/-- Tagged record of one write-contract call (WriteRecord of
src/write.rs lines 768-773); w is the bit width of the value type of
the original call (the width tag carried by UnsignedValue and
SignedValue). -/
inductive WriteRecord
  | bit (b : Bool)
  | unsigned (w bits value : Nat)
  | signed (w bits : Nat) (value : Int)
  | bytes (buf : List Nat)
deriving DecidableEq, Repr

/-- Recording backend state (BitRecorder of src/write.rs): the running
bit total plus the ordered, append-only log of write records. -/
structure BitRecorder where
  bits : Nat
  records : List WriteRecord
deriving DecidableEq, Repr

/-- Fresh recorder with an empty log. -/
def BitRecorder.fresh : BitRecorder := ⟨0, []⟩

/-- BitRecorder write_bit (src/write.rs lines 871-875): append the
record and count one bit; never fails. -/
def BitRecorder.write_bit (r : BitRecorder) (b : Bool) : WResult BitRecorder :=
  (⟨r.bits + 1, r.records ++ [.bit b]⟩, none)

/-- BitRecorder write (src/write.rs lines 877-889): append the record
carrying exactly the given arguments and advance the total by bits; no
fit validation is performed at record time. -/
def BitRecorder.write (r : BitRecorder) (w bits value : Nat) : WResult BitRecorder :=
  (⟨r.bits + bits, r.records ++ [.unsigned w bits value]⟩, none)

/-- BitRecorder write_signed (src/write.rs lines 891-903): append the
record and advance the total by bits; no fit validation at record time. -/
def BitRecorder.write_signed (r : BitRecorder) (w bits : Nat) (v : Int) :
    WResult BitRecorder :=
  (⟨r.bits + bits, r.records ++ [.signed w bits v]⟩, none)

/-- BitRecorder write_bytes (src/write.rs lines 905-912): append the
buffer record and advance the total by eight bits per byte. -/
def BitRecorder.write_bytes (r : BitRecorder) (buf : List Nat) : WResult BitRecorder :=
  (⟨r.bits + 8 * buf.length, r.records ++ [.bytes buf]⟩, none)

/-- BitRecorder byte_aligned (src/write.rs lines 914-917). -/
def BitRecorder.byte_aligned (r : BitRecorder) : Bool := r.bits % 8 == 0

/-- WriteRecord::playback (src/write.rs lines 776-806): replay one
record through the matching operation of the target writer. -/
def WriteRecord.playback (E : Endianness) (rec : WriteRecord) (s : BitWriter) :
    WResult BitWriter :=
  match rec with
  | .bit b => s.write_bit E b
  | .unsigned w bits v => s.write E w bits v
  | .signed w bits v => s.write_signed E w bits v
  | .bytes buf => s.write_bytes E buf

/-- Sequential application of a list of write-contract calls to a
direct-sink writer, stopping at the first failure (the try_for_each of
BitRecorder::playback, and equally a caller issuing the calls
directly). -/
def run_records (E : Endianness) : BitWriter → List WriteRecord → WResult BitWriter
  | s, [] => (s, none)
  | s, rec :: rest => andThen (rec.playback E s) (fun s2 => run_records E s2 rest)

/-- BitRecorder::playback (src/write.rs lines 858-863): replay the log
in original order onto the target, stopping at the first failure.  The
receiver is taken immutably, so the log is neither consumed nor
cleared. -/
def BitRecorder.playback (E : Endianness) (r : BitRecorder) (s : BitWriter) :
    WResult BitWriter :=
  run_records E s r.records

/-- Dispatch one write-contract call to the recording backend. -/
def record_one (r : BitRecorder) (rec : WriteRecord) : WResult BitRecorder :=
  match rec with
  | .bit b => r.write_bit b
  | .unsigned w bits v => r.write w bits v
  | .signed w bits v => r.write_signed w bits v
  | .bytes buf => r.write_bytes buf

/-- Sequential application of a list of write-contract calls to the
recording backend. -/
def record_all : BitRecorder → List WriteRecord → WResult BitRecorder
  | r, [] => (r, none)
  | r, rec :: rest => andThen (record_one r rec) (fun r2 => record_all r2 rest)

/-- Dispatch one write-contract call to the counting backend. -/
def counter_one (E : Endianness) (c : Nat) (rec : WriteRecord) :
    Nat × Option WriteError :=
  match rec with
  | .bit b => BitCounter.write_bit c b
  | .unsigned w bits v => BitCounter.write c w bits v
  | .signed w bits v => BitCounter.write_signed E c w bits v
  | .bytes buf => BitCounter.write_bytes c buf

/-- Sequential application of a list of write-contract calls to the
counting backend. -/
def run_records_counter (E : Endianness) : Nat → List WriteRecord → Nat × Option WriteError
  | c, [] => (c, none)
  | c, rec :: rest => andThen (counter_one E c rec) (fun c2 => run_records_counter E c2 rest)

/-- Well-formedness of a write-contract call: the value fits its
declared machine type and buffer entries are bytes.  These are the
typing guarantees the Rust signatures provide for free. -/
def WriteRecord.WF : WriteRecord → Prop
  | .bit _ => True
  | .unsigned w _ value => value < 2 ^ w
  | .signed w _ value => -(2 ^ (w - 1) : Int) ≤ value ∧ value < (2 ^ (w - 1) : Int)
  | .bytes buf => ∀ b ∈ buf, b < 256

/-- Writer invariant: the partial accumulator holds strictly fewer than
8 bits, its packed value has no garbage bits beyond its length, and
every emitted byte is a byte. -/
def Inv (s : BitWriter) : Prop :=
  s.bitqueue.len < 8 ∧ s.bitqueue.val < 2 ^ s.bitqueue.len ∧ ∀ b ∈ s.out, b < 256

instance (s : BitWriter) : Decidable (Inv s) := by
  unfold Inv
  exact inferInstance

instance (r : WriteRecord) : Decidable r.WF := by
  cases r <;> (unfold WriteRecord.WF; exact inferInstance)

/-- Big-endian packing of a byte list into one natural number: the head
byte is most significant. -/
def nat_of_bytes_be (l : List Nat) : Nat := l.foldl (fun a b => a * 256 + b) 0

/-- Little-endian packing of a byte list: the head byte is least
significant. -/
def nat_of_bytes_le : List Nat → Nat
  | [] => 0
  | b :: l => b + 256 * nat_of_bytes_le l

/-- Total number of bits held by a writer: emitted bytes plus the
pending partial-byte length. -/
def abs_len (s : BitWriter) : Nat := 8 * s.out.length + s.bitqueue.len

/-- Full bit content of a writer packed as one natural number, in the
stream order of the given strategy. -/
def abs_val (E : Endianness) (s : BitWriter) : Nat :=
  match E with
  | .BE => nat_of_bytes_be s.out * 2 ^ s.bitqueue.len + s.bitqueue.val
  | .LE => nat_of_bytes_le s.out + s.bitqueue.val * 2 ^ (8 * s.out.length)

/-- Bytes popped from the front of a big-endian accumulator of length L
holding value V, during k pop-8 steps. -/
def chunk_be : Nat → Nat → Nat → List Nat
  | 0, _, _ => []
  | k + 1, L, V => (V / 2 ^ (L - 8)) % 256 :: chunk_be k (L - 8) (V % 2 ^ (L - 8))

/-- Bytes popped from the front of a little-endian accumulator holding
value V, during k pop-8 steps. -/
def chunk_le : Nat → Nat → List Nat
  | 0, _ => []
  | k + 1, V => V % 256 :: chunk_le k (V / 256)

/-- Value contributed to the packed stream content by one bit, in the
given strategy. -/
def bit_contrib (E : Endianness) (b : Bool) (total : Nat) (bl : Nat) : Nat :=
  match E with
  | .BE => total * 2 + (if b then 1 else 0)
  | .LE => total + (if b then 1 else 0) * 2 ^ bl

/-- Value contributed to the packed stream content by a successful
write of the low bits bits of value, in the given strategy. -/
def write_contrib (E : Endianness) (total bl bits value : Nat) : Nat :=
  match E with
  | .BE => total * 2 ^ bits + value
  | .LE => total + value * 2 ^ bl

/-- Big-endian packing of a bit list into one natural number: the head
bit is most significant. -/
def bits_val_be (bl : List Bool) : Nat :=
  bl.foldl (fun a b => 2 * a + (if b then 1 else 0)) 0

/-- Little-endian packing of a bit list: the head bit is least
significant. -/
def bits_val_le : List Bool → Nat
  | [] => 0
  | b :: t => (if b then 1 else 0) + 2 * bits_val_le t

/-- Packed content after appending a bit list to a stream holding the
given total, in the given strategy. -/
def bits_fold (E : Endianness) (total bl0 : Nat) (bl : List Bool) : Nat :=
  match E with
  | .BE => total * 2 ^ bl.length + bits_val_be bl
  | .LE => total + bits_val_le bl * 2 ^ bl0

/-- Folding big-endian byte packing from an arbitrary initial value. -/
theorem foldl_be_init (l : List Nat) : ∀ a : Nat,
    l.foldl (fun a b => a * 256 + b) a = a * 256 ^ l.length + nat_of_bytes_be l := by
  induction l with
  | nil => intro a; simp [nat_of_bytes_be]
  | cons b t ih =>
    intro a
    simp only [List.foldl_cons, List.length_cons, nat_of_bytes_be] at *
    rw [ih (a * 256 + b), ih (0 * 256 + b)]
    ring

theorem nat_of_bytes_be_cons (b : Nat) (t : List Nat) :
    nat_of_bytes_be (b :: t) = b * 256 ^ t.length + nat_of_bytes_be t := by
  have := foldl_be_init t b
  simp [nat_of_bytes_be, List.foldl_cons, this]

theorem nat_of_bytes_be_append (l1 l2 : List Nat) :
    nat_of_bytes_be (l1 ++ l2) = nat_of_bytes_be l1 * 256 ^ l2.length + nat_of_bytes_be l2 := by
  simp only [nat_of_bytes_be, List.foldl_append]
  exact foldl_be_init l2 _

theorem nat_of_bytes_be_lt (l : List Nat) (h : ∀ b ∈ l, b < 256) :
    nat_of_bytes_be l < 256 ^ l.length := by
  induction l with
  | nil => simp [nat_of_bytes_be]
  | cons b t ih =>
    rw [nat_of_bytes_be_cons]
    have hb : b < 256 := h b (by simp)
    have ht : nat_of_bytes_be t < 256 ^ t.length := ih (fun x hx => h x (by simp [hx]))
    have : b * 256 ^ t.length + nat_of_bytes_be t < (b + 1) * 256 ^ t.length := by
      nlinarith [pow_pos (by norm_num : (0:Nat) < 256) t.length]
    calc b * 256 ^ t.length + nat_of_bytes_be t < (b + 1) * 256 ^ t.length := this
      _ ≤ 256 * 256 ^ t.length := by
          have : b + 1 ≤ 256 := hb
          exact Nat.mul_le_mul_right _ this
      _ = 256 ^ (t.length + 1) := by ring
      _ = 256 ^ (b :: t).length := by simp

theorem nat_of_bytes_be_inj (l1 l2 : List Nat) (hlen : l1.length = l2.length)
    (h1 : ∀ b ∈ l1, b < 256) (h2 : ∀ b ∈ l2, b < 256)
    (hv : nat_of_bytes_be l1 = nat_of_bytes_be l2) : l1 = l2 := by
  induction l1 generalizing l2 with
  | nil => cases l2 with
    | nil => rfl
    | cons b t => simp at hlen
  | cons b1 t1 ih =>
    cases l2 with
    | nil => simp at hlen
    | cons b2 t2 =>
      simp only [List.length_cons, Nat.succ.injEq] at hlen
      rw [nat_of_bytes_be_cons, nat_of_bytes_be_cons, hlen] at hv
      have hr1 : nat_of_bytes_be t1 < 256 ^ t2.length := hlen ▸ nat_of_bytes_be_lt t1 (fun x hx => h1 x (by simp [hx]))
      have hr2 : nat_of_bytes_be t2 < 256 ^ t2.length := nat_of_bytes_be_lt t2 (fun x hx => h2 x (by simp [hx]))
      have hb : b1 = b2 := by
        have e1 : (b1 * 256 ^ t2.length + nat_of_bytes_be t1) / 256 ^ t2.length = b1 := by
          rw [Nat.mul_comm b1, Nat.mul_add_div (pow_pos (by norm_num) _), Nat.div_eq_of_lt hr1]
          omega
        have e2 : (b2 * 256 ^ t2.length + nat_of_bytes_be t2) / 256 ^ t2.length = b2 := by
          rw [Nat.mul_comm b2, Nat.mul_add_div (pow_pos (by norm_num) _), Nat.div_eq_of_lt hr2]
          omega
        rw [← e1, ← e2, hv]
      have hrest : nat_of_bytes_be t1 = nat_of_bytes_be t2 := by
        subst hb
        omega
      rw [hb, ih t2 hlen (fun x hx => h1 x (by simp [hx])) (fun x hx => h2 x (by simp [hx])) hrest]

theorem nat_of_bytes_le_append (l1 l2 : List Nat) :
    nat_of_bytes_le (l1 ++ l2) = nat_of_bytes_le l1 + 256 ^ l1.length * nat_of_bytes_le l2 := by
  induction l1 with
  | nil => simp [nat_of_bytes_le]
  | cons b t ih => simp [nat_of_bytes_le, ih]; ring

theorem nat_of_bytes_le_lt (l : List Nat) (h : ∀ b ∈ l, b < 256) :
    nat_of_bytes_le l < 256 ^ l.length := by
  induction l with
  | nil => simp [nat_of_bytes_le]
  | cons b t ih =>
    have hb : b < 256 := h b (by simp)
    have ht : nat_of_bytes_le t < 256 ^ t.length := ih (fun x hx => h x (by simp [hx]))
    simp only [nat_of_bytes_le, List.length_cons, pow_succ]
    nlinarith

theorem nat_of_bytes_le_inj (l1 l2 : List Nat) (hlen : l1.length = l2.length)
    (h1 : ∀ b ∈ l1, b < 256) (h2 : ∀ b ∈ l2, b < 256)
    (hv : nat_of_bytes_le l1 = nat_of_bytes_le l2) : l1 = l2 := by
  induction l1 generalizing l2 with
  | nil => cases l2 with
    | nil => rfl
    | cons b t => simp at hlen
  | cons b1 t1 ih =>
    cases l2 with
    | nil => simp at hlen
    | cons b2 t2 =>
      simp only [List.length_cons, Nat.succ.injEq] at hlen
      simp only [nat_of_bytes_le] at hv
      have hb1 : b1 < 256 := h1 b1 (by simp)
      have hb2 : b2 < 256 := h2 b2 (by simp)
      have hb : b1 = b2 := by omega
      have hrest : nat_of_bytes_le t1 = nat_of_bytes_le t2 := by omega
      rw [hb, ih t2 hlen (fun x hx => h1 x (by simp [hx])) (fun x hx => h2 x (by simp [hx])) hrest]

theorem pow_256_eq (k : Nat) : 256 ^ k = 2 ^ (8 * k) := by
  rw [show (256 : Nat) = 2 ^ 8 from rfl, ← pow_mul]

/-- The pair of total length and packed content determines the writer
state, on states satisfying the invariant. -/
theorem abs_inj (E : Endianness) (s t : BitWriter) (hs : Inv s) (ht : Inv t)
    (hl : abs_len s = abs_len t) (hv : abs_val E s = abs_val E t) : s = t := by
  obtain ⟨hs1, hs2, hs3⟩ := hs
  obtain ⟨ht1, ht2, ht3⟩ := ht
  unfold abs_len at hl
  have hlen : s.out.length = t.out.length ∧ s.bitqueue.len = t.bitqueue.len := by omega
  obtain ⟨hlo, hlq⟩ := hlen
  have houtval : nat_of_bytes_be s.out = nat_of_bytes_be t.out ∧ s.bitqueue.val = t.bitqueue.val ∨
      nat_of_bytes_le s.out = nat_of_bytes_le t.out ∧ s.bitqueue.val = t.bitqueue.val := by
    cases E with
    | BE =>
      left
      simp only [abs_val] at hv
      rw [hlq] at hv
      constructor
      · have e1 : (nat_of_bytes_be s.out * 2 ^ t.bitqueue.len + s.bitqueue.val) / 2 ^ t.bitqueue.len = nat_of_bytes_be s.out := by
          rw [Nat.mul_comm, Nat.mul_add_div (pow_pos (by norm_num) _), Nat.div_eq_of_lt (hlq ▸ hs2)]
          omega
        have e2 : (nat_of_bytes_be t.out * 2 ^ t.bitqueue.len + t.bitqueue.val) / 2 ^ t.bitqueue.len = nat_of_bytes_be t.out := by
          rw [Nat.mul_comm, Nat.mul_add_div (pow_pos (by norm_num) _), Nat.div_eq_of_lt ht2]
          omega
        rw [← e1, ← e2, hv]
      · have hq1 : s.bitqueue.val < 2 ^ t.bitqueue.len := hlq ▸ hs2
        have e1 : (nat_of_bytes_be s.out * 2 ^ t.bitqueue.len + s.bitqueue.val) % 2 ^ t.bitqueue.len = s.bitqueue.val := by
          rw [Nat.mul_comm, Nat.mul_add_mod, Nat.mod_eq_of_lt hq1]
        have e2 : (nat_of_bytes_be t.out * 2 ^ t.bitqueue.len + t.bitqueue.val) % 2 ^ t.bitqueue.len = t.bitqueue.val := by
          rw [Nat.mul_comm, Nat.mul_add_mod, Nat.mod_eq_of_lt ht2]
        rw [← e1, ← e2, hv]
    | LE =>
      right
      simp only [abs_val] at hv
      rw [hlo] at hv
      have hb1 : nat_of_bytes_le s.out < 2 ^ (8 * t.out.length) := by
        rw [← pow_256_eq, ← hlo]; exact nat_of_bytes_le_lt s.out hs3
      have hb2 : nat_of_bytes_le t.out < 2 ^ (8 * t.out.length) := by
        rw [← pow_256_eq]; exact nat_of_bytes_le_lt t.out ht3
      constructor
      · have e1 : (nat_of_bytes_le s.out + s.bitqueue.val * 2 ^ (8 * t.out.length)) % 2 ^ (8 * t.out.length) = nat_of_bytes_le s.out := by
          rw [Nat.add_mul_mod_self_right, Nat.mod_eq_of_lt hb1]
        have e2 : (nat_of_bytes_le t.out + t.bitqueue.val * 2 ^ (8 * t.out.length)) % 2 ^ (8 * t.out.length) = nat_of_bytes_le t.out := by
          rw [Nat.add_mul_mod_self_right, Nat.mod_eq_of_lt hb2]
        rw [← e1, ← e2, hv]
      · have e1 : (nat_of_bytes_le s.out + s.bitqueue.val * 2 ^ (8 * t.out.length)) / 2 ^ (8 * t.out.length) = s.bitqueue.val := by
          rw [Nat.add_mul_div_right _ _ (pow_pos (by norm_num) _), Nat.div_eq_of_lt hb1, Nat.zero_add]
        have e2 : (nat_of_bytes_le t.out + t.bitqueue.val * 2 ^ (8 * t.out.length)) / 2 ^ (8 * t.out.length) = t.bitqueue.val := by
          rw [Nat.add_mul_div_right _ _ (pow_pos (by norm_num) _), Nat.div_eq_of_lt hb2, Nat.zero_add]
        rw [← e1, ← e2, hv]
  have hout : s.out = t.out := by
    rcases houtval with ⟨h, _⟩ | ⟨h, _⟩
    · exact nat_of_bytes_be_inj s.out t.out hlo hs3 ht3 h
    · exact nat_of_bytes_le_inj s.out t.out hlo hs3 ht3 h
  have hval : s.bitqueue.val = t.bitqueue.val := by
    rcases houtval with ⟨_, h⟩ | ⟨_, h⟩ <;> exact h
  obtain ⟨so, sq⟩ := s
  obtain ⟨uo, uq⟩ := t
  obtain ⟨ql, qv⟩ := sq
  obtain ⟨rl, rv⟩ := uq
  simp_all

theorem chunk_be_length (k : Nat) : ∀ L V, (chunk_be k L V).length = k := by
  induction k with
  | zero => intro L V; rfl
  | succ k ih => intro L V; simp [chunk_be, ih]

theorem chunk_be_bytes (k : Nat) : ∀ L V, ∀ b ∈ chunk_be k L V, b < 256 := by
  induction k with
  | zero => intro L V b hb; simp [chunk_be] at hb
  | succ k ih =>
    intro L V b hb
    simp only [chunk_be, List.mem_cons] at hb
    rcases hb with h | h
    · subst h; exact Nat.mod_lt _ (by norm_num)
    · exact ih _ _ b h

theorem chunk_le_length (k : Nat) : ∀ V, (chunk_le k V).length = k := by
  induction k with
  | zero => intro V; rfl
  | succ k ih => intro V; simp [chunk_le, ih]

theorem chunk_le_bytes (k : Nat) : ∀ V, ∀ b ∈ chunk_le k V, b < 256 := by
  induction k with
  | zero => intro V b hb; simp [chunk_le] at hb
  | succ k ih =>
    intro V b hb
    simp only [chunk_le, List.mem_cons] at hb
    rcases hb with h | h
    · subst h; exact Nat.mod_lt _ (by norm_num)
    · exact ih _ b h

theorem write_aligned_go_be (k : Nat) : ∀ (out : List Nat) (L V : Nat), V < 2 ^ L →
    write_aligned_go .BE k out ⟨L, V⟩ =
      (out ++ chunk_be k L V, ⟨L - 8 * k, V % 2 ^ (L - 8 * k)⟩) := by
  induction k with
  | zero =>
    intro out L V hV
    simp [write_aligned_go, chunk_be, Nat.mod_eq_of_lt hV]
  | succ k ih =>
    intro out L V hV
    have hVr : V % 2 ^ (L - 8) < 2 ^ (L - 8) := Nat.mod_lt _ (pow_pos (by norm_num) _)
    simp only [write_aligned_go, BitQueue.pop, write_byte, chunk_be]
    rw [ih (out ++ [V / 2 ^ (L - 8) % 256]) (L - 8) (V % 2 ^ (L - 8)) hVr]
    have h1 : L - 8 - 8 * k = L - 8 * (k + 1) := by omega
    have h2 : (V % 2 ^ (L - 8)) % 2 ^ (L - 8 - 8 * k) = V % 2 ^ (L - 8 - 8 * k) :=
      Nat.mod_mod_of_dvd V (pow_dvd_pow 2 (by omega))
    rw [h2, h1]
    simp [List.append_assoc]

theorem write_aligned_go_le (k : Nat) : ∀ (out : List Nat) (L V : Nat),
    write_aligned_go .LE k out ⟨L, V⟩ =
      (out ++ chunk_le k V, ⟨L - 8 * k, V / 2 ^ (8 * k)⟩) := by
  induction k with
  | zero =>
    intro out L V
    simp [write_aligned_go, chunk_le]
  | succ k ih =>
    intro out L V
    simp only [write_aligned_go, BitQueue.pop, write_byte, chunk_le]
    rw [ih (out ++ [V % 2 ^ 8 % 256]) (L - 8) (V / 2 ^ 8)]
    have h1 : L - 8 - 8 * k = L - 8 * (k + 1) := by omega
    have h2 : V % 2 ^ 8 % 256 = V % 256 := by norm_num
    have h3 : V / 2 ^ 8 / 2 ^ (8 * k) = V / 2 ^ (8 * (k + 1)) := by
      rw [Nat.div_div_eq_div_mul, ← pow_add, show 8 + 8 * k = 8 * (k + 1) by omega]
    rw [h1, h2, h3]
    simp [List.append_assoc]

theorem chunk_be_nb (k : Nat) : ∀ L V, V < 2 ^ L → 8 * k ≤ L →
    nat_of_bytes_be (chunk_be k L V) = V / 2 ^ (L - 8 * k) := by
  induction k with
  | zero =>
    intro L V hV _
    simp [chunk_be, nat_of_bytes_be, Nat.div_eq_of_lt hV]
  | succ k ih =>
    intro L V hV hk
    have hL8 : 8 ≤ L := by omega
    have hVr : V % 2 ^ (L - 8) < 2 ^ (L - 8) := Nat.mod_lt _ (pow_pos (by norm_num) _)
    have hdiv : V / 2 ^ (L - 8) < 256 := by
      rw [show (256 : Nat) = 2 ^ 8 from rfl]
      rw [Nat.div_lt_iff_lt_mul (pow_pos (by norm_num) _), ← pow_add]
      have : 8 + (L - 8) = L := by omega
      rw [this]; exact hV
    simp only [chunk_be, nat_of_bytes_be_cons, chunk_be_length, Nat.mod_eq_of_lt hdiv]
    rw [ih (L - 8) (V % 2 ^ (L - 8)) hVr (by omega)]
    have hm : L - 8 - 8 * k = L - 8 * (k + 1) := by omega
    rw [hm, pow_256_eq]
    have hsplit : (L - 8 * (k + 1)) + 8 * k = L - 8 := by omega
    have key : V = 2 ^ (L - 8 * (k + 1)) * (2 ^ (8 * k) * (V / 2 ^ (L - 8))) + V % 2 ^ (L - 8) := by
      rw [← Nat.mul_assoc, ← pow_add, hsplit]
      exact (Nat.div_add_mod V (2 ^ (L - 8))).symm
    conv_rhs => rw [key]
    rw [Nat.mul_add_div (pow_pos (by norm_num) _)]
    ring

theorem chunk_le_nb (k : Nat) : ∀ V, nat_of_bytes_le (chunk_le k V) = V % 2 ^ (8 * k) := by
  induction k with
  | zero => intro V; simp [chunk_le, nat_of_bytes_le, Nat.mod_one]
  | succ k ih =>
    intro V
    simp only [chunk_le, nat_of_bytes_le, ih]
    have h : 2 ^ (8 * (k + 1)) = 256 * 2 ^ (8 * k) := by
      rw [show (256 : Nat) = 2 ^ 8 from rfl, ← pow_add, show 8 + 8 * k = 8 * (k + 1) by omega]
    rw [h]
    have key : V = 256 * 2 ^ (8 * k) * (V / 256 / 2 ^ (8 * k)) + (V % 256 + 256 * (V / 256 % 2 ^ (8 * k))) := by
      have e1 : V = 256 * (V / 256) + V % 256 := (Nat.div_add_mod V 256).symm
      have e2 : V / 256 = 2 ^ (8 * k) * (V / 256 / 2 ^ (8 * k)) + V / 256 % 2 ^ (8 * k) :=
        (Nat.div_add_mod (V / 256) (2 ^ (8 * k))).symm
      calc V = 256 * (V / 256) + V % 256 := e1
        _ = 256 * (2 ^ (8 * k) * (V / 256 / 2 ^ (8 * k)) + V / 256 % 2 ^ (8 * k)) + V % 256 := by rw [← e2]
        _ = 256 * 2 ^ (8 * k) * (V / 256 / 2 ^ (8 * k)) + (V % 256 + 256 * (V / 256 % 2 ^ (8 * k))) := by ring
    have hlt : V % 256 + 256 * (V / 256 % 2 ^ (8 * k)) < 256 * 2 ^ (8 * k) := by
      have h1 : V % 256 < 256 := Nat.mod_lt _ (by norm_num)
      have h2 : V / 256 % 2 ^ (8 * k) < 2 ^ (8 * k) := Nat.mod_lt _ (pow_pos (by norm_num) _)
      nlinarith
    conv_rhs => rw [key]
    rw [Nat.mul_add_mod, Nat.mod_eq_of_lt hlt]

/-- One write_bit call always succeeds, preserves the invariant, grows
the total bit count by one and appends the bit to the packed content. -/
theorem write_bit_ok (E : Endianness) (s : BitWriter) (b : Bool) (hInv : Inv s) :
    (s.write_bit E b).2 = none ∧ Inv (s.write_bit E b).1 ∧
    abs_len (s.write_bit E b).1 = abs_len s + 1 ∧
    abs_val E (s.write_bit E b).1 = bit_contrib E b (abs_val E s) (abs_len s) := by
  obtain ⟨out, q⟩ := s
  obtain ⟨l, v⟩ := q
  obtain ⟨h1, h2, h3⟩ := hInv
  simp only at h1 h2 h3
  cases E with
  | BE =>
    by_cases hl : l + 1 = 8
    · have hl7 : l = 7 := by omega
      subst hl7
      have hres : BitWriter.write_bit .BE ⟨out, ⟨7, v⟩⟩ b =
          (⟨out ++ [v * 2 + (if b then 1 else 0)], ⟨0, 0⟩⟩, none) := by
        simp [BitWriter.write_bit, BitQueue.push, BitQueue.pop, write_byte, Nat.mod_one]
      rw [hres]
      refine ⟨rfl, ⟨by norm_num, by norm_num, ?_⟩, ?_, ?_⟩
      · intro x hx
        rcases List.mem_append.mp hx with hx | hx
        · exact h3 x hx
        · have hxx : x = v * 2 + (if b then 1 else 0) := by simpa using hx
          subst hxx
          have : v < 128 := by simpa using h2
          cases b <;> simp <;> omega
      · simp only [abs_len, List.length_append, List.length_cons, List.length_nil]
        omega
      · simp only [abs_val, nat_of_bytes_be_append, bit_contrib, nat_of_bytes_be,
          List.foldl_cons, List.foldl_nil, List.length_cons, List.length_nil]
        norm_num
        ring
    · have hres : BitWriter.write_bit .BE ⟨out, ⟨l, v⟩⟩ b =
          (⟨out, ⟨l + 1, v * 2 + (if b then 1 else 0)⟩⟩, none) := by
        have hb8 : ((l + 1 : Nat) == 8) = false := by simp; omega
        simp [BitWriter.write_bit, BitQueue.push, hb8]
      rw [hres]
      refine ⟨rfl, ⟨by simp only; omega, ?_, by simpa using h3⟩, ?_, ?_⟩
      · show v * 2 + (if b then 1 else 0) < 2 ^ (l + 1)
        have he : (2:Nat) ^ (l + 1) = 2 ^ l * 2 := by ring
        cases b <;> simp <;> omega
      · simp only [abs_len]
        omega
      · simp only [abs_val, bit_contrib, pow_succ]
        ring
  | LE =>
    by_cases hl : l + 1 = 8
    · have hl7 : l = 7 := by omega
      subst hl7
      have hres : BitWriter.write_bit .LE ⟨out, ⟨7, v⟩⟩ b =
          (⟨out ++ [v + (if b then 1 else 0) * 2 ^ 7], ⟨0, 0⟩⟩, none) := by
        simp [BitWriter.write_bit, BitQueue.push, BitQueue.pop, write_byte]
        have : v < 128 := by simpa using h2
        cases b <;> simp <;> omega
      rw [hres]
      refine ⟨rfl, ⟨by norm_num, by norm_num, ?_⟩, ?_, ?_⟩
      · intro x hx
        rcases List.mem_append.mp hx with hx | hx
        · exact h3 x hx
        · have hxx : x = v + (if b then 1 else 0) * 2 ^ 7 := by simpa using hx
          subst hxx
          have : v < 128 := by simpa using h2
          cases b <;> simp <;> omega
      · simp only [abs_len, List.length_append, List.length_cons, List.length_nil]
        omega
      · simp only [abs_val, nat_of_bytes_le_append, bit_contrib, nat_of_bytes_le,
          List.length_append, List.length_cons, List.length_nil, abs_len]
        rw [pow_256_eq]
        ring_nf
    · have hres : BitWriter.write_bit .LE ⟨out, ⟨l, v⟩⟩ b =
          (⟨out, ⟨l + 1, v + (if b then 1 else 0) * 2 ^ l⟩⟩, none) := by
        have hb8 : ((l + 1 : Nat) == 8) = false := by simp; omega
        simp [BitWriter.write_bit, BitQueue.push, hb8]
      rw [hres]
      refine ⟨rfl, ⟨by simp only; omega, ?_, by simpa using h3⟩, ?_, ?_⟩
      · show v + (if b then 1 else 0) * 2 ^ l < 2 ^ (l + 1)
        have he : (2:Nat) ^ (l + 1) = 2 ^ l * 2 := by ring
        cases b <;> simp <;> omega
      · simp only [abs_len]
        omega
      · simp only [abs_val, bit_contrib, abs_len]
        ring

theorem write_unaligned_empty (E : Endianness) (out : List Nat) (acc : BitQueue) (v : Nat) :
    write_unaligned E out acc ⟨0, v⟩ = (out, acc, ⟨0, v⟩) := by
  simp [write_unaligned, BitQueue.is_empty]

theorem write_unaligned_be (out : List Nat) (l v bits value : Nat)
    (hl0 : l ≠ 0) (hl : l < 8) (hv : v < 2 ^ l) (hslow : 8 - l ≤ bits)
    (hfit : value < 2 ^ bits) :
    write_unaligned .BE out ⟨bits, value⟩ ⟨l, v⟩ =
      (out ++ [v * 2 ^ (8 - l) + value / 2 ^ (bits - (8 - l))],
       ⟨bits - (8 - l), value % 2 ^ (bits - (8 - l))⟩, ⟨0, 0⟩) := by
  have ht : min (8 - l) bits = 8 - l := by omega
  have hpv : value / 2 ^ (bits - (8 - l)) < 2 ^ (8 - l) := by
    rw [Nat.div_lt_iff_lt_mul (pow_pos (by norm_num) _), ← pow_add]
    rw [show 8 - l + (bits - (8 - l)) = bits by omega]
    exact hfit
  have hpv256 : value / 2 ^ (bits - (8 - l)) % 256 = value / 2 ^ (bits - (8 - l)) := by
    apply Nat.mod_eq_of_lt
    calc value / 2 ^ (bits - (8 - l)) < 2 ^ (8 - l) := hpv
      _ ≤ 2 ^ 8 := Nat.pow_le_pow_right (by norm_num) (by omega)
      _ = 256 := by norm_num
  have hl8 : l + (8 - l) = 8 := by omega
  simp only [write_unaligned, BitQueue.is_empty, BitQueue.remaining_len, BitQueue.pop,
    BitQueue.push, ht, hpv256, hl8, write_byte]
  have hne : (l == 0) = false := by simp; omega
  simp only [hne, Bool.false_eq_true, if_false]
  norm_num
  simp [Nat.mod_one]

theorem write_unaligned_le (out : List Nat) (l v bits value : Nat)
    (hl0 : l ≠ 0) (hl : l < 8) (hv : v < 2 ^ l) (hslow : 8 - l ≤ bits) :
    write_unaligned .LE out ⟨bits, value⟩ ⟨l, v⟩ =
      (out ++ [v + value % 2 ^ (8 - l) * 2 ^ l],
       ⟨bits - (8 - l), value / 2 ^ (8 - l)⟩, ⟨0, 0⟩) := by
  have ht : min (8 - l) bits = 8 - l := by omega
  have hpv : value % 2 ^ (8 - l) < 2 ^ (8 - l) := Nat.mod_lt _ (pow_pos (by norm_num) _)
  have hpv256 : value % 2 ^ (8 - l) % 256 = value % 2 ^ (8 - l) := by
    apply Nat.mod_eq_of_lt
    calc value % 2 ^ (8 - l) < 2 ^ (8 - l) := hpv
      _ ≤ 2 ^ 8 := Nat.pow_le_pow_right (by norm_num) (by omega)
      _ = 256 := by norm_num
  have hl8 : l + (8 - l) = 8 := by omega
  have hV2 : v + value % 2 ^ (8 - l) * 2 ^ l < 256 := by
    have h1 : value % 2 ^ (8 - l) * 2 ^ l ≤ (2 ^ (8 - l) - 1) * 2 ^ l := by
      apply Nat.mul_le_mul_right
      omega
    have h2 : (2:Nat) ^ (8 - l) * 2 ^ l = 256 := by
      rw [← pow_add, show 8 - l + l = 8 by omega]
      norm_num
    have h3 : (2:Nat) ^ l ≤ 2 ^ 8 := Nat.pow_le_pow_right (by norm_num) (by omega)
    nlinarith [pow_pos (show (0:Nat) < 2 by norm_num) l]
  have hne : (l == 0) = false := by simp; omega
  simp only [write_unaligned, BitQueue.is_empty, BitQueue.remaining_len, BitQueue.pop,
    BitQueue.push, ht, hpv256, hl8, write_byte, hne, Bool.false_eq_true, if_false]
  norm_num
  exact ⟨hV2, Nat.div_eq_of_lt hV2⟩

theorem be_recombine (nb value bits : Nat) :
    (nb * 2 ^ (8 * (bits / 8)) + value / 2 ^ (bits % 8)) * 2 ^ (bits % 8) + value % 2 ^ (bits % 8) =
      nb * 2 ^ bits + value := by
  have hsplit : 8 * (bits / 8) + bits % 8 = bits := Nat.div_add_mod bits 8
  have e3 : 2 ^ (bits % 8) * (value / 2 ^ (bits % 8)) + value % 2 ^ (bits % 8) = value :=
    Nat.div_add_mod _ _
  calc (nb * 2 ^ (8 * (bits / 8)) + value / 2 ^ (bits % 8)) * 2 ^ (bits % 8) + value % 2 ^ (bits % 8)
      = nb * (2 ^ (8 * (bits / 8)) * 2 ^ (bits % 8))
        + (2 ^ (bits % 8) * (value / 2 ^ (bits % 8)) + value % 2 ^ (bits % 8)) := by ring
    _ = nb * 2 ^ bits + value := by rw [← pow_add, hsplit, e3]

theorem be_recombine2 (nb v l bits value : Nat) (hl : l < 8) (hslow : 8 - l ≤ bits) :
    ((nb * 256 + (v * 2 ^ (8 - l) + value / 2 ^ (bits - (8 - l))))
        * 2 ^ (8 * ((bits - (8 - l)) / 8))
        + value % 2 ^ (bits - (8 - l)) / 2 ^ ((bits - (8 - l)) % 8))
        * 2 ^ ((bits - (8 - l)) % 8)
      + value % 2 ^ (bits - (8 - l)) % 2 ^ ((bits - (8 - l)) % 8)
      = (nb * 2 ^ l + v) * 2 ^ bits + value := by
  rw [be_recombine (nb * 256 + (v * 2 ^ (8 - l) + value / 2 ^ (bits - (8 - l))))
    (value % 2 ^ (bits - (8 - l))) (bits - (8 - l))]
  have e1 : (8:Nat) + (bits - (8 - l)) = l + bits := by omega
  have e2 : (8 - l) + (bits - (8 - l)) = bits := by omega
  have e3 : 2 ^ (bits - (8 - l)) * (value / 2 ^ (bits - (8 - l))) + value % 2 ^ (bits - (8 - l)) = value :=
    Nat.div_add_mod _ _
  calc (nb * 256 + (v * 2 ^ (8 - l) + value / 2 ^ (bits - (8 - l)))) * 2 ^ (bits - (8 - l))
        + value % 2 ^ (bits - (8 - l))
      = nb * (2 ^ 8 * 2 ^ (bits - (8 - l))) + v * (2 ^ (8 - l) * 2 ^ (bits - (8 - l)))
        + (2 ^ (bits - (8 - l)) * (value / 2 ^ (bits - (8 - l))) + value % 2 ^ (bits - (8 - l))) := by
          norm_num
          ring
    _ = nb * 2 ^ (l + bits) + v * 2 ^ bits + value := by rw [← pow_add, ← pow_add, e1, e2, e3]
    _ = (nb * 2 ^ l + v) * 2 ^ bits + value := by rw [pow_add]; ring

theorem write_ok_be (s : BitWriter) (w bits value : Nat) (hInv : Inv s)
    (hbw : bits ≤ w) (hfit : value < 2 ^ bits) :
    (s.write .BE w bits value).2 = none ∧ Inv (s.write .BE w bits value).1 ∧
    abs_len (s.write .BE w bits value).1 = abs_len s + bits ∧
    abs_val .BE (s.write .BE w bits value).1 = abs_val .BE s * 2 ^ bits + value := by
  obtain ⟨out, q⟩ := s
  obtain ⟨l, v⟩ := q
  obtain ⟨h1, h2, h3⟩ := hInv
  simp only at h1 h2 h3
  have hc1 : ¬ (w < bits) := by omega
  have hc2 : ¬ (bits < w ∧ 2 ^ bits ≤ value) := by rintro ⟨_, hh⟩; omega
  by_cases hfast : bits < 8 - l
  · have hv256 : value % 256 = value := by
      apply Nat.mod_eq_of_lt
      calc value < 2 ^ bits := hfit
        _ ≤ 2 ^ 8 := Nat.pow_le_pow_right (by norm_num) (by omega)
        _ = 256 := by norm_num
    have hres : BitWriter.write .BE ⟨out, ⟨l, v⟩⟩ w bits value =
        (⟨out, ⟨l + bits, v * 2 ^ bits + value⟩⟩, none) := by
      simp only [BitWriter.write, BitQueue.remaining_len, BitQueue.push]
      rw [if_neg hc1, if_neg hc2, if_pos hfast, hv256]
    rw [hres]
    refine ⟨rfl, ⟨by simp only; omega, ?_, by simpa using h3⟩, by simp only [abs_len]; omega, ?_⟩
    · show v * 2 ^ bits + value < 2 ^ (l + bits)
      have h5 : (v + 1) * 2 ^ bits ≤ 2 ^ l * 2 ^ bits := Nat.mul_le_mul_right _ h2
      rw [pow_add]
      nlinarith
    · simp only [abs_val, pow_add]
      ring
  · by_cases hl0 : l = 0
    · subst hl0
      have hv0 : v = 0 := by
        have : v < 1 := by simpa using h2
        omega
      subst hv0
      have hm8 : bits - 8 * (bits / 8) = bits % 8 := by omega
      have hval2 : value % 2 ^ (bits % 8) % 256 = value % 2 ^ (bits % 8) := by
        apply Nat.mod_eq_of_lt
        calc value % 2 ^ (bits % 8) < 2 ^ (bits % 8) := Nat.mod_lt _ (pow_pos (by norm_num) _)
          _ ≤ 2 ^ 8 := Nat.pow_le_pow_right (by norm_num) (by omega)
          _ = 256 := by norm_num
      have hres : BitWriter.write .BE ⟨out, ⟨0, 0⟩⟩ w bits value =
          (⟨out ++ chunk_be (bits / 8) bits value, ⟨bits % 8, value % 2 ^ (bits % 8)⟩⟩, none) := by
        simp only [BitWriter.write, BitQueue.remaining_len]
        rw [if_neg hc1, if_neg hc2, if_neg hfast]
        simp only [BitQueue.from_value]
        rw [write_unaligned_empty]
        simp only [write_aligned]
        rw [write_aligned_go_be (bits / 8) out bits value hfit]
        simp only [BitQueue.push, hm8, hval2]
        norm_num
      rw [hres]
      refine ⟨rfl, ⟨by simp only; omega, by
          simp only
          exact Nat.mod_lt _ (pow_pos (by norm_num) _), ?_⟩, ?_, ?_⟩
      · intro x hx
        rcases List.mem_append.mp hx with hx | hx
        · exact h3 x hx
        · exact chunk_be_bytes _ _ _ x hx
      · simp only [abs_len, List.length_append, chunk_be_length]
        omega
      · simp only [abs_val, nat_of_bytes_be_append, chunk_be_length]
        rw [chunk_be_nb (bits / 8) bits value hfit (by omega), pow_256_eq, hm8]
        rw [be_recombine]
        norm_num
    · have hwu := write_unaligned_be out l v bits value hl0 h1 h2 (by omega) hfit
      have hfit1 : value % 2 ^ (bits - (8 - l)) < 2 ^ (bits - (8 - l)) :=
        Nat.mod_lt _ (pow_pos (by norm_num) _)
      have hm8 : bits - (8 - l) - 8 * ((bits - (8 - l)) / 8) = (bits - (8 - l)) % 8 := by omega
      have hval2 : value % 2 ^ (bits - (8 - l)) % 2 ^ ((bits - (8 - l)) % 8) % 256
          = value % 2 ^ (bits - (8 - l)) % 2 ^ ((bits - (8 - l)) % 8) := by
        apply Nat.mod_eq_of_lt
        calc value % 2 ^ (bits - (8 - l)) % 2 ^ ((bits - (8 - l)) % 8)
            < 2 ^ ((bits - (8 - l)) % 8) := Nat.mod_lt _ (pow_pos (by norm_num) _)
          _ ≤ 2 ^ 8 := Nat.pow_le_pow_right (by norm_num) (by omega)
          _ = 256 := by norm_num
      have hres : BitWriter.write .BE ⟨out, ⟨l, v⟩⟩ w bits value =
          (⟨(out ++ [v * 2 ^ (8 - l) + value / 2 ^ (bits - (8 - l))])
              ++ chunk_be ((bits - (8 - l)) / 8) (bits - (8 - l)) (value % 2 ^ (bits - (8 - l))),
            ⟨(bits - (8 - l)) % 8,
              value % 2 ^ (bits - (8 - l)) % 2 ^ ((bits - (8 - l)) % 8)⟩⟩, none) := by
        simp only [BitWriter.write, BitQueue.remaining_len]
        rw [if_neg hc1, if_neg hc2, if_neg hfast]
        simp only [BitQueue.from_value]
        rw [hwu]
        simp only [write_aligned]
        rw [write_aligned_go_be ((bits - (8 - l)) / 8) _ (bits - (8 - l))
          (value % 2 ^ (bits - (8 - l))) hfit1]
        simp only [BitQueue.push, hm8, hval2]
        norm_num
      rw [hres]
      have hV2 : v * 2 ^ (8 - l) + value / 2 ^ (bits - (8 - l)) < 256 := by
        have hpv : value / 2 ^ (bits - (8 - l)) < 2 ^ (8 - l) := by
          rw [Nat.div_lt_iff_lt_mul (pow_pos (by norm_num) _), ← pow_add]
          rw [show 8 - l + (bits - (8 - l)) = bits by omega]
          exact hfit
        have h5 : (v + 1) * 2 ^ (8 - l) ≤ 2 ^ l * 2 ^ (8 - l) := Nat.mul_le_mul_right _ h2
        have h6 : (2:Nat) ^ l * 2 ^ (8 - l) = 256 := by
          rw [← pow_add, show l + (8 - l) = 8 by omega]
          norm_num
        nlinarith
      refine ⟨rfl, ⟨by simp only; omega, by
          simp only
          exact Nat.mod_lt _ (pow_pos (by norm_num) _), ?_⟩, ?_, ?_⟩
      · intro x hx
        rcases List.mem_append.mp hx with hx | hx
        · rcases List.mem_append.mp hx with hx | hx
          · exact h3 x hx
          · have : x = v * 2 ^ (8 - l) + value / 2 ^ (bits - (8 - l)) := by simpa using hx
            omega
        · exact chunk_be_bytes _ _ _ x hx
      · simp only [abs_len, List.length_append, chunk_be_length, List.length_cons,
          List.length_nil]
        omega
      · have hsing : nat_of_bytes_be [v * 2 ^ (8 - l) + value / 2 ^ (bits - (8 - l))]
            = v * 2 ^ (8 - l) + value / 2 ^ (bits - (8 - l)) := by
          simp [nat_of_bytes_be]
        simp only [abs_val]
        rw [nat_of_bytes_be_append, nat_of_bytes_be_append, chunk_be_length,
          chunk_be_nb ((bits - (8 - l)) / 8) (bits - (8 - l)) (value % 2 ^ (bits - (8 - l)))
            hfit1 (by omega),
          hm8, hsing, List.length_cons, List.length_nil,
          show (256:Nat) ^ (0 + 1) = 256 by norm_num,
          pow_256_eq ((bits - (8 - l)) / 8)]
        exact be_recombine2 (nat_of_bytes_be out) v l bits value h1 (by omega)

theorem nat_of_bytes_le_singleton (x : Nat) : nat_of_bytes_le [x] = x := by
  simp [nat_of_bytes_le]

theorem le_recombine (nbl n k value : Nat) :
    nbl + 2 ^ (8 * n) * (value % 2 ^ (8 * k)) + value / 2 ^ (8 * k) * 2 ^ (8 * (n + k))
      = nbl + value * 2 ^ (8 * n) := by
  have hsplit : 8 * (n + k) = 8 * n + 8 * k := by ring
  have e3 : 2 ^ (8 * k) * (value / 2 ^ (8 * k)) + value % 2 ^ (8 * k) = value :=
    Nat.div_add_mod _ _
  calc nbl + 2 ^ (8 * n) * (value % 2 ^ (8 * k)) + value / 2 ^ (8 * k) * 2 ^ (8 * (n + k))
      = nbl + 2 ^ (8 * n) * (2 ^ (8 * k) * (value / 2 ^ (8 * k)) + value % 2 ^ (8 * k)) := by
        rw [hsplit, pow_add]; ring
    _ = nbl + value * 2 ^ (8 * n) := by rw [e3]; ring

theorem le_recombine2 (nbl n v l bits value : Nat) (hl : l < 8) (hslow : 8 - l ≤ bits) :
    nbl + 2 ^ (8 * n) * (v + value % 2 ^ (8 - l) * 2 ^ l)
      + 2 ^ (8 * (n + 1)) * (value / 2 ^ (8 - l) % 2 ^ (8 * ((bits - (8 - l)) / 8)))
      + value / 2 ^ (8 - l) / 2 ^ (8 * ((bits - (8 - l)) / 8))
          * 2 ^ (8 * (n + 1 + (bits - (8 - l)) / 8))
      = nbl + v * 2 ^ (8 * n) + value * 2 ^ (8 * n + l) := by
  have e3 : 2 ^ (8 * ((bits - (8 - l)) / 8)) * (value / 2 ^ (8 - l) / 2 ^ (8 * ((bits - (8 - l)) / 8)))
      + value / 2 ^ (8 - l) % 2 ^ (8 * ((bits - (8 - l)) / 8)) = value / 2 ^ (8 - l) :=
    Nat.div_add_mod _ _
  have e4 : 2 ^ (8 - l) * (value / 2 ^ (8 - l)) + value % 2 ^ (8 - l) = value :=
    Nat.div_add_mod _ _
  have e5 : 8 * (n + 1) = 8 * n + (8 - l) + l := by omega
  generalize hq : value / 2 ^ (8 - l) / 2 ^ (8 * ((bits - (8 - l)) / 8)) = q at *
  generalize hr : value / 2 ^ (8 - l) % 2 ^ (8 * ((bits - (8 - l)) / 8)) = r at *
  generalize hd : value / 2 ^ (8 - l) = d at *
  generalize hm : value % 2 ^ (8 - l) = m at *
  have hll : (2:Nat) ^ l * 2 ^ (8 - l) = 256 := by
    rw [← pow_add, show l + (8 - l) = 8 by omega]
    norm_num
  rw [← e4, ← e3, e5]
  ring_nf
  rw [← hll]
  ring

theorem write_ok_le (s : BitWriter) (w bits value : Nat) (hInv : Inv s)
    (hbw : bits ≤ w) (hfit : value < 2 ^ bits) :
    (s.write .LE w bits value).2 = none ∧ Inv (s.write .LE w bits value).1 ∧
    abs_len (s.write .LE w bits value).1 = abs_len s + bits ∧
    abs_val .LE (s.write .LE w bits value).1 = abs_val .LE s + value * 2 ^ abs_len s := by
  obtain ⟨out, q⟩ := s
  obtain ⟨l, v⟩ := q
  obtain ⟨h1, h2, h3⟩ := hInv
  simp only at h1 h2 h3
  have hc1 : ¬ (w < bits) := by omega
  have hc2 : ¬ (bits < w ∧ 2 ^ bits ≤ value) := by rintro ⟨_, hh⟩; omega
  by_cases hfast : bits < 8 - l
  · have hv256 : value % 256 = value := by
      apply Nat.mod_eq_of_lt
      calc value < 2 ^ bits := hfit
        _ ≤ 2 ^ 8 := Nat.pow_le_pow_right (by norm_num) (by omega)
        _ = 256 := by norm_num
    have hres : BitWriter.write .LE ⟨out, ⟨l, v⟩⟩ w bits value =
        (⟨out, ⟨l + bits, v + value * 2 ^ l⟩⟩, none) := by
      simp only [BitWriter.write, BitQueue.remaining_len, BitQueue.push]
      rw [if_neg hc1, if_neg hc2, if_pos hfast, hv256]
    rw [hres]
    refine ⟨rfl, ⟨by simp only; omega, ?_, by simpa using h3⟩, by simp only [abs_len]; omega, ?_⟩
    · show v + value * 2 ^ l < 2 ^ (l + bits)
      have h5 : (value + 1) * 2 ^ l ≤ 2 ^ bits * 2 ^ l := Nat.mul_le_mul_right _ hfit
      rw [pow_add]
      nlinarith
    · simp only [abs_val, abs_len]
      ring
  · by_cases hl0 : l = 0
    · subst hl0
      have hv0 : v = 0 := by
        have : v < 1 := by simpa using h2
        omega
      subst hv0
      have hm8 : bits - 8 * (bits / 8) = bits % 8 := by omega
      have hdivlt : value / 2 ^ (8 * (bits / 8)) < 2 ^ (bits % 8) := by
        rw [Nat.div_lt_iff_lt_mul (pow_pos (by norm_num) _), ← pow_add]
        rw [show bits % 8 + 8 * (bits / 8) = bits by omega]
        exact hfit
      have hval2 : value / 2 ^ (8 * (bits / 8)) % 256 = value / 2 ^ (8 * (bits / 8)) := by
        apply Nat.mod_eq_of_lt
        calc value / 2 ^ (8 * (bits / 8)) < 2 ^ (bits % 8) := hdivlt
          _ ≤ 2 ^ 8 := Nat.pow_le_pow_right (by norm_num) (by omega)
          _ = 256 := by norm_num
      have hres : BitWriter.write .LE ⟨out, ⟨0, 0⟩⟩ w bits value =
          (⟨out ++ chunk_le (bits / 8) value, ⟨bits % 8, value / 2 ^ (8 * (bits / 8))⟩⟩, none) := by
        simp only [BitWriter.write, BitQueue.remaining_len]
        rw [if_neg hc1, if_neg hc2, if_neg hfast]
        simp only [BitQueue.from_value]
        rw [write_unaligned_empty]
        simp only [write_aligned]
        rw [write_aligned_go_le (bits / 8) out bits value]
        simp only [BitQueue.push, hm8, hval2]
        norm_num
      rw [hres]
      refine ⟨rfl, ⟨by simp only; omega, by simp only; exact hdivlt, ?_⟩, ?_, ?_⟩
      · intro x hx
        rcases List.mem_append.mp hx with hx | hx
        · exact h3 x hx
        · exact chunk_le_bytes _ _ x hx
      · simp only [abs_len, List.length_append, chunk_le_length]
        omega
      · simp only [abs_val, abs_len]
        rw [nat_of_bytes_le_append, chunk_le_nb]
        simp only [List.length_append, chunk_le_length, pow_256_eq]
        have := le_recombine (nat_of_bytes_le out) out.length (bits / 8) value
        norm_num at this ⊢
        linarith [this]
    · have hwu := write_unaligned_le out l v bits value hl0 h1 h2 (by omega)
      have hV1 : value / 2 ^ (8 - l) < 2 ^ (bits - (8 - l)) := by
        rw [Nat.div_lt_iff_lt_mul (pow_pos (by norm_num) _), ← pow_add]
        rw [show bits - (8 - l) + (8 - l) = bits by omega]
        exact hfit
      have hm8 : bits - (8 - l) - 8 * ((bits - (8 - l)) / 8) = (bits - (8 - l)) % 8 := by omega
      have hdivlt : value / 2 ^ (8 - l) / 2 ^ (8 * ((bits - (8 - l)) / 8)) < 2 ^ ((bits - (8 - l)) % 8) := by
        rw [Nat.div_lt_iff_lt_mul (pow_pos (by norm_num) _), ← pow_add]
        rw [show (bits - (8 - l)) % 8 + 8 * ((bits - (8 - l)) / 8) = bits - (8 - l) by omega]
        exact hV1
      have hval2 : value / 2 ^ (8 - l) / 2 ^ (8 * ((bits - (8 - l)) / 8)) % 256
          = value / 2 ^ (8 - l) / 2 ^ (8 * ((bits - (8 - l)) / 8)) := by
        apply Nat.mod_eq_of_lt
        calc value / 2 ^ (8 - l) / 2 ^ (8 * ((bits - (8 - l)) / 8))
            < 2 ^ ((bits - (8 - l)) % 8) := hdivlt
          _ ≤ 2 ^ 8 := Nat.pow_le_pow_right (by norm_num) (by omega)
          _ = 256 := by norm_num
      have hres : BitWriter.write .LE ⟨out, ⟨l, v⟩⟩ w bits value =
          (⟨(out ++ [v + value % 2 ^ (8 - l) * 2 ^ l])
              ++ chunk_le ((bits - (8 - l)) / 8) (value / 2 ^ (8 - l)),
            ⟨(bits - (8 - l)) % 8,
              value / 2 ^ (8 - l) / 2 ^ (8 * ((bits - (8 - l)) / 8))⟩⟩, none) := by
        simp only [BitWriter.write, BitQueue.remaining_len]
        rw [if_neg hc1, if_neg hc2, if_neg hfast]
        simp only [BitQueue.from_value]
        rw [hwu]
        simp only [write_aligned]
        rw [write_aligned_go_le ((bits - (8 - l)) / 8) _ (bits - (8 - l)) (value / 2 ^ (8 - l))]
        simp only [BitQueue.push, hm8, hval2]
        norm_num
      rw [hres]
      have hV2 : v + value % 2 ^ (8 - l) * 2 ^ l < 256 := by
        have hpv : value % 2 ^ (8 - l) < 2 ^ (8 - l) := Nat.mod_lt _ (pow_pos (by norm_num) _)
        have h5 : (value % 2 ^ (8 - l) + 1) * 2 ^ l ≤ 2 ^ (8 - l) * 2 ^ l := Nat.mul_le_mul_right _ hpv
        have h6 : (2:Nat) ^ (8 - l) * 2 ^ l = 256 := by
          rw [← pow_add, show 8 - l + l = 8 by omega]
          norm_num
        nlinarith
      refine ⟨rfl, ⟨by simp only; omega, by simp only; exact hdivlt, ?_⟩, ?_, ?_⟩
      · intro x hx
        rcases List.mem_append.mp hx with hx | hx
        · rcases List.mem_append.mp hx with hx | hx
          · exact h3 x hx
          · have : x = v + value % 2 ^ (8 - l) * 2 ^ l := by simpa using hx
            omega
        · exact chunk_le_bytes _ _ x hx
      · simp only [abs_len, List.length_append, chunk_le_length, List.length_cons,
          List.length_nil]
        omega
      · simp only [abs_val, abs_len]
        rw [nat_of_bytes_le_append, nat_of_bytes_le_append, chunk_le_nb,
          nat_of_bytes_le_singleton]
        simp only [List.length_append, chunk_le_length, List.length_cons, List.length_nil,
          pow_256_eq]
        have := le_recombine2 (nat_of_bytes_le out) out.length v l bits value h1 (by omega)
        norm_num at this ⊢
        linarith [this]

theorem write_ok (E : Endianness) (s : BitWriter) (w bits value : Nat) (hInv : Inv s)
    (hbw : bits ≤ w) (hfit : value < 2 ^ bits) :
    (s.write E w bits value).2 = none ∧ Inv (s.write E w bits value).1 ∧
    abs_len (s.write E w bits value).1 = abs_len s + bits ∧
    abs_val E (s.write E w bits value).1
      = write_contrib E (abs_val E s) (abs_len s) bits value := by
  cases E with
  | BE => exact write_ok_be s w bits value hInv hbw hfit
  | LE => exact write_ok_le s w bits value hInv hbw hfit

theorem write_err (E : Endianness) (s : BitWriter) (w bits value : Nat)
    (hbad : w < bits ∨ (bits < w ∧ 2 ^ bits ≤ value)) :
    s.write E w bits value = (s, some .invalidInput) := by
  rcases hbad with h | h
  · simp only [BitWriter.write]
    rw [if_pos h]
  · simp only [BitWriter.write]
    rw [if_neg (by omega), if_pos h]

theorem write_none (E : Endianness) (s : BitWriter) (w bits value : Nat)
    (hok : ¬ (w < bits ∨ (bits < w ∧ 2 ^ bits ≤ value))) :
    (s.write E w bits value).2 = none := by
  push_neg at hok
  simp only [BitWriter.write]
  rw [if_neg (by omega), if_neg (by rintro ⟨h1, h2⟩; have := hok.2 h1; omega)]
  split <;> rfl

theorem counter_write_err (c : Nat) (w bits value : Nat)
    (hbad : w < bits ∨ (bits < w ∧ 2 ^ bits ≤ value)) :
    BitCounter.write c w bits value = (c, some .invalidInput) := by
  rcases hbad with h | h
  · simp only [BitCounter.write]
    rw [if_pos h]
  · simp only [BitCounter.write]
    rw [if_neg (by omega), if_pos h]

theorem counter_write_ok (c : Nat) (w bits value : Nat)
    (hok : ¬ (w < bits ∨ (bits < w ∧ 2 ^ bits ≤ value))) :
    BitCounter.write c w bits value = (c + bits, none) := by
  push_neg at hok
  simp only [BitCounter.write]
  rw [if_neg (by omega), if_neg (by rintro ⟨h1, h2⟩; have := hok.2 h1; omega)]

theorem wres_eta {σ : Type} (r : WResult σ) (h : r.2 = none) : r = (r.1, none) := by
  obtain ⟨a, e⟩ := r
  simp only at h
  rw [h]

theorem twos_low_lt (bits : Nat) (v : Int) : twos_low bits v < 2 ^ (bits - 1) := by
  unfold twos_low
  have hpos : (0:Int) < (2:Int) ^ (bits - 1) := by positivity
  have h1 : v % (2:Int) ^ (bits - 1) < (2:Int) ^ (bits - 1) := Int.emod_lt_of_pos v hpos
  have h2 : (0:Int) ≤ v % (2:Int) ^ (bits - 1) := Int.emod_nonneg v (by positivity)
  have hcast : ((2 ^ (bits - 1) : Nat) : Int) = (2:Int) ^ (bits - 1) := by push_cast; ring
  omega

theorem write_signed_ok (E : Endianness) (s : BitWriter) (w bits : Nat) (v : Int)
    (hInv : Inv s) (hok : ¬ signed_invalid w bits v) :
    (s.write_signed E w bits v).2 = none ∧ Inv (s.write_signed E w bits v).1 ∧
    abs_len (s.write_signed E w bits v).1 = abs_len s + 1 + (bits - 1) := by
  have hbw : bits ≤ w := by
    by_contra hh
    exact hok (Or.inl (by omega))
  have hfit : twos_low bits v < 2 ^ (bits - 1) := twos_low_lt bits v
  have hbw1 : bits - 1 ≤ w := by omega
  cases E with
  | BE =>
    simp only [BitWriter.write_signed, if_neg hok]
    obtain ⟨hb1, hb2, hb3, _⟩ := write_bit_ok .BE s (decide (v < 0)) hInv
    rw [wres_eta _ hb1]
    simp only [andThen]
    obtain ⟨hw1, hw2, hw3, _⟩ :=
      write_ok .BE ((s.write_bit .BE (decide (v < 0))).1) w (bits - 1) (twos_low bits v) hb2 hbw1 hfit
    exact ⟨hw1, hw2, by omega⟩
  | LE =>
    simp only [BitWriter.write_signed, if_neg hok]
    obtain ⟨hw1, hw2, hw3, _⟩ := write_ok .LE s w (bits - 1) (twos_low bits v) hInv hbw1 hfit
    rw [wres_eta _ hw1]
    simp only [andThen]
    obtain ⟨hb1, hb2, hb3, _⟩ :=
      write_bit_ok .LE ((s.write .LE w (bits - 1) (twos_low bits v)).1) (decide (v < 0)) hw2
    exact ⟨hb1, hb2, by omega⟩

theorem write_signed_err (E : Endianness) (s : BitWriter) (w bits : Nat) (v : Int)
    (hbad : signed_invalid w bits v) :
    s.write_signed E w bits v = (s, some .invalidInput) := by
  simp only [BitWriter.write_signed, if_pos hbad]

theorem counter_write_signed_ok (E : Endianness) (c : Nat) (w bits : Nat) (v : Int)
    (hok : ¬ signed_invalid w bits v) :
    BitCounter.write_signed E c w bits v = (c + 1 + (bits - 1), none) := by
  have hbw : bits ≤ w := by
    by_contra hh
    exact hok (Or.inl (by omega))
  have hfit : twos_low bits v < 2 ^ (bits - 1) := twos_low_lt bits v
  have hinner : ¬ (w < bits - 1 ∨ (bits - 1 < w ∧ 2 ^ (bits - 1) ≤ twos_low bits v)) := by
    rintro (h | ⟨_, h⟩)
    · omega
    · omega
  cases E with
  | BE =>
    simp only [BitCounter.write_signed, if_neg hok, BitCounter.write_bit, andThen]
    rw [counter_write_ok _ _ _ _ hinner]
  | LE =>
    simp only [BitCounter.write_signed, if_neg hok]
    rw [counter_write_ok _ _ _ _ hinner]
    simp only [andThen, BitCounter.write_bit]
    have hco : c + (bits - 1) + 1 = c + 1 + (bits - 1) := Nat.add_right_comm c (bits - 1) 1
    rw [hco]

theorem counter_write_signed_err (E : Endianness) (c : Nat) (w bits : Nat) (v : Int)
    (hbad : signed_invalid w bits v) :
    BitCounter.write_signed E c w bits v = (c, some .invalidInput) := by
  simp only [BitCounter.write_signed, if_pos hbad]

theorem byte_align_go_ok (E : Endianness) (fuel : Nat) : ∀ s : BitWriter, Inv s →
    (8 - s.bitqueue.len) % 8 ≤ fuel →
    Inv (byte_align_go E fuel s) ∧ (byte_align_go E fuel s).bitqueue.len = 0 ∧
    abs_len (byte_align_go E fuel s) = abs_len s + (8 - s.bitqueue.len) % 8 := by
  induction fuel with
  | zero =>
    intro s hInv hle
    have hl8 : s.bitqueue.len < 8 := hInv.1
    have hl : s.bitqueue.len = 0 := by omega
    simp only [byte_align_go]
    exact ⟨hInv, hl, by omega⟩
  | succ fuel ih =>
    intro s hInv hle
    have hl8 : s.bitqueue.len < 8 := hInv.1
    by_cases hal : s.byte_aligned
    · have hl : s.bitqueue.len = 0 := by
        simpa [BitWriter.byte_aligned, BitQueue.is_empty] using hal
      simp only [byte_align_go, if_pos hal]
      exact ⟨hInv, hl, by omega⟩
    · have hl : s.bitqueue.len ≠ 0 := by
        simpa [BitWriter.byte_aligned, BitQueue.is_empty] using hal
      simp only [byte_align_go, if_neg hal]
      obtain ⟨hb1, hb2, hb3, _⟩ := write_bit_ok E s false hInv
      have hlt2 : (s.write_bit E false).1.bitqueue.len < 8 := hb2.1
      have hlen2 : (s.write_bit E false).1.bitqueue.len = (s.bitqueue.len + 1) % 8 := by
        simp only [abs_len] at hb3
        omega
      obtain ⟨ih1, ih2, ih3⟩ := ih (s.write_bit E false).1 hb2 (by omega)
      refine ⟨ih1, ih2, ?_⟩
      rw [ih3, hb3]
      omega

theorem byte_align_ok (E : Endianness) (s : BitWriter) (hInv : Inv s) :
    (s.byte_align E).2 = none ∧ Inv (s.byte_align E).1 ∧
    (s.byte_align E).1.bitqueue.len = 0 ∧
    abs_len (s.byte_align E).1 = abs_len s + (8 - s.bitqueue.len) % 8 := by
  obtain ⟨h1, h2, h3⟩ := byte_align_go_ok E 8 s hInv (by omega)
  exact ⟨rfl, h1, h2, h3⟩

theorem byte_align_go_counter_ok (fuel : Nat) : ∀ c : Nat, (8 - c % 8) % 8 ≤ fuel →
    byte_align_go_counter fuel c = c + (8 - c % 8) % 8 := by
  induction fuel with
  | zero =>
    intro c hle
    have : (8 - c % 8) % 8 = 0 := by omega
    simp only [byte_align_go_counter]
    omega
  | succ fuel ih =>
    intro c hle
    by_cases hal : BitCounter.byte_aligned c
    · have hc : c % 8 = 0 := by
        simpa [BitCounter.byte_aligned] using hal
      simp only [byte_align_go_counter, if_pos hal]
      omega
    · have hc : ¬ (c % 8 = 0) := by
        simpa [BitCounter.byte_aligned] using hal
      simp only [byte_align_go_counter, if_neg hal]
      rw [ih (c + 1) (by omega)]
      omega

theorem counter_byte_align (c : Nat) :
    BitCounter.byte_align c = (c + (8 - c % 8) % 8, none) := by
  simp only [BitCounter.byte_align]
  rw [byte_align_go_counter_ok 8 c (by omega)]

theorem andThen_none {σ : Type} (s : σ) (f : σ → WResult σ) :
    andThen (s, none) f = f s := rfl

theorem andThen_some {σ : Type} (s : σ) (e : WriteError) (f : σ → WResult σ) :
    andThen (s, some e) f = (s, some e) := rfl

theorem andThen_assoc {σ : Type} (r : WResult σ) (f g : σ → WResult σ) :
    andThen (andThen r f) g = andThen r (fun x => andThen (f x) g) := by
  obtain ⟨s, e⟩ := r
  cases e <;> simp [andThen]

theorem run_records_append (E : Endianness) (L1 L2 : List WriteRecord) : ∀ s : BitWriter,
    run_records E s (L1 ++ L2) =
      andThen (run_records E s L1) (fun s2 => run_records E s2 L2) := by
  induction L1 with
  | nil =>
    intro s
    simp [run_records, andThen]
  | cons rec rest ih =>
    intro s
    simp only [List.cons_append, run_records]
    rw [andThen_assoc]
    congr 1
    funext s2
    exact ih s2

theorem run_records_singleton (E : Endianness) (rec : WriteRecord) (s : BitWriter) :
    run_records E s [rec] = rec.playback E s := by
  simp only [run_records]
  obtain ⟨s2, e⟩ := rec.playback E s
  cases e <;> simp [andThen, run_records]

theorem record_one_ok (r : BitRecorder) (rec : WriteRecord) :
    (record_one r rec).2 = none ∧ (record_one r rec).1.records = r.records ++ [rec] := by
  cases rec <;> simp [record_one, BitRecorder.write, BitRecorder.write_bit,
    BitRecorder.write_signed, BitRecorder.write_bytes]

theorem record_all_ok (L : List WriteRecord) : ∀ r : BitRecorder,
    (record_all r L).2 = none ∧ (record_all r L).1.records = r.records ++ L := by
  induction L with
  | nil =>
    intro r
    simp [record_all]
  | cons rec rest ih =>
    intro r
    obtain ⟨h1, h2⟩ := record_one_ok r rec
    simp only [record_all]
    rw [wres_eta _ h1]
    simp only [andThen]
    obtain ⟨ih1, ih2⟩ := ih (record_one r rec).1
    refine ⟨ih1, ?_⟩
    rw [ih2, h2]
    simp

theorem playback_eq_run (E : Endianness) (r : BitRecorder) (s : BitWriter) :
    BitRecorder.playback E r s = run_records E s r.records := rfl

theorem foldl_bits_init (bl : List Bool) : ∀ a : Nat,
    bl.foldl (fun a b => 2 * a + (if b then 1 else 0)) a
      = a * 2 ^ bl.length + bits_val_be bl := by
  induction bl with
  | nil => intro a; simp [bits_val_be]
  | cons b t ih =>
    intro a
    simp only [List.foldl_cons, List.length_cons, bits_val_be] at *
    rw [ih (2 * a + (if b then 1 else 0)), ih (2 * 0 + (if b then 1 else 0))]
    ring

theorem bits_val_be_cons (b : Bool) (t : List Bool) :
    bits_val_be (b :: t) = (if b then 1 else 0) * 2 ^ t.length + bits_val_be t := by
  have := foldl_bits_init t (2 * 0 + (if b then 1 else 0))
  simp only [bits_val_be, List.foldl_cons, this]
  ring

theorem bits_val_be_replicate (n : Nat) :
    bits_val_be (List.replicate n true) = 2 ^ n - 1 := by
  induction n with
  | zero => simp [bits_val_be]
  | succ n ih =>
    rw [List.replicate_succ, bits_val_be_cons, ih, List.length_replicate]
    have h1 : (1:Nat) ≤ 2 ^ n := Nat.one_le_two_pow
    have h2 : (2:Nat) ^ (n + 1) = 2 ^ n * 2 := by ring
    simp only [if_pos]
    omega

theorem bits_val_le_replicate (n : Nat) :
    bits_val_le (List.replicate n true) = 2 ^ n - 1 := by
  induction n with
  | zero => simp [bits_val_le]
  | succ n ih =>
    rw [List.replicate_succ]
    simp only [bits_val_le, ih]
    have h1 : (1:Nat) ≤ 2 ^ n := Nat.one_le_two_pow
    have h2 : (2:Nat) ^ (n + 1) = 2 ^ n * 2 := by ring
    simp only [if_pos]
    omega

theorem run_bits_ok (E : Endianness) (bl : List Bool) : ∀ s : BitWriter, Inv s →
    (run_records E s (bl.map WriteRecord.bit)).2 = none ∧
    Inv (run_records E s (bl.map WriteRecord.bit)).1 ∧
    abs_len (run_records E s (bl.map WriteRecord.bit)).1 = abs_len s + bl.length ∧
    abs_val E (run_records E s (bl.map WriteRecord.bit)).1
      = bits_fold E (abs_val E s) (abs_len s) bl := by
  induction bl with
  | nil =>
    intro s hInv
    refine ⟨rfl, hInv, ?_, ?_⟩
    · simp [run_records]
    · cases E <;> simp [run_records, bits_fold, bits_val_be, bits_val_le]
  | cons b t ih =>
    intro s hInv
    obtain ⟨hb1, hb2, hb3, hb4⟩ := write_bit_ok E s b hInv
    simp only [List.map_cons, run_records, WriteRecord.playback]
    rw [wres_eta _ hb1]
    simp only [andThen]
    obtain ⟨ih1, ih2, ih3, ih4⟩ := ih (s.write_bit E b).1 hb2
    refine ⟨ih1, ih2, by rw [ih3, hb3]; simp [List.length_cons]; omega, ?_⟩
    rw [ih4, hb4, hb3]
    cases E with
    | BE =>
      simp only [bits_fold, bit_contrib, bits_val_be_cons, List.length_cons, pow_succ]
      ring
    | LE =>
      simp only [bits_fold, bit_contrib, bits_val_le, pow_succ]
      ring

theorem write_ones_eq (E : Endianness) (s : BitWriter) (w b : Nat)
    (hInv : Inv s) (hbw : b ≤ w) :
    s.write E w b (2 ^ b - 1)
      = run_records E s ((List.replicate b true).map WriteRecord.bit) := by
  have hfit : 2 ^ b - 1 < 2 ^ b := by
    have : (1:Nat) ≤ 2 ^ b := Nat.one_le_two_pow
    omega
  obtain ⟨hw1, hw2, hw3, hw4⟩ := write_ok E s w b (2 ^ b - 1) hInv hbw hfit
  obtain ⟨hr1, hr2, hr3, hr4⟩ := run_bits_ok E (List.replicate b true) s hInv
  have hstate : (s.write E w b (2 ^ b - 1)).1
      = (run_records E s ((List.replicate b true).map WriteRecord.bit)).1 := by
    apply abs_inj E _ _ hw2 hr2
    · rw [hw3, hr3, List.length_replicate]
    · rw [hw4, hr4]
      cases E with
      | BE =>
        simp only [write_contrib, bits_fold, bits_val_be_replicate, List.length_replicate]
      | LE =>
        simp only [write_contrib, bits_fold, bits_val_le_replicate, List.length_replicate]
  calc s.write E w b (2 ^ b - 1) = ((s.write E w b (2 ^ b - 1)).1, none) := wres_eta _ hw1
    _ = ((run_records E s ((List.replicate b true).map WriteRecord.bit)).1, none) := by
        rw [hstate]
    _ = run_records E s ((List.replicate b true).map WriteRecord.bit) :=
        (wres_eta _ hr1).symm

theorem write_unary0_eq (E : Endianness) : ∀ (n : Nat) (s : BitWriter), Inv s →
    s.write_unary0 E n
      = run_records E s ((List.replicate n true ++ [false]).map WriteRecord.bit) := by
  intro n
  induction n using Nat.strong_induction_on with
  | _ n ih =>
    intro s hInv
    have hbranch : ∀ (W : Nat), n ≤ W → s.write_unary0 E n
        = andThen (s.write E W n (2 ^ n - 1)) (fun s2 => s2.write_bit E false) →
        s.write_unary0 E n
        = run_records E s ((List.replicate n true ++ [false]).map WriteRecord.bit) := by
      intro W hnW heq
      rw [heq, write_ones_eq E s W n hInv hnW]
      obtain ⟨hr1, hr2, _, _⟩ := run_bits_ok E (List.replicate n true) s hInv
      rw [wres_eta _ hr1]
      simp only [andThen]
      rw [List.map_append, run_records_append, wres_eta _ hr1]
      simp only [andThen, List.map_cons, List.map_nil]
      rw [run_records_singleton]
      simp only [WriteRecord.playback]
    by_cases h0 : n = 0
    · subst h0
      rw [BitWriter.write_unary0]
      rw [if_pos rfl]
      simp only [List.replicate_zero, List.nil_append, List.map_cons, List.map_nil]
      rw [run_records_singleton]
      simp only [WriteRecord.playback]
    · by_cases h31 : n ≤ 31
      · apply hbranch 32 (by omega)
        rw [BitWriter.write_unary0]
        rw [if_neg h0, if_pos h31]
      · by_cases h32 : n = 32
        · subst h32
          apply hbranch 32 (by omega)
          rw [BitWriter.write_unary0]
          rw [if_neg h0, if_neg h31, if_pos rfl]
        · by_cases h63 : n ≤ 63
          · apply hbranch 64 (by omega)
            rw [BitWriter.write_unary0]
            rw [if_neg h0, if_neg h31, if_neg h32, if_pos h63]
          · by_cases h64 : n = 64
            · subst h64
              apply hbranch 64 (by omega)
              rw [BitWriter.write_unary0]
              rw [if_neg h0, if_neg h31, if_neg h32, if_neg h63, if_pos rfl]
            · have hgt : 64 < n := by omega
              have hstep : s.write_unary0 E n
                  = andThen (s.write E 64 64 (2 ^ 64 - 1))
                      (fun s2 => s2.write_unary0 E (n - 64)) := by
                rw [BitWriter.write_unary0]
                rw [if_neg h0, if_neg h31, if_neg h32, if_neg h63, if_neg h64]
              obtain ⟨hr1, hr2, _, _⟩ := run_bits_ok E (List.replicate 64 true) s hInv
              have hsplit : List.replicate n true
                  = List.replicate 64 true ++ List.replicate (n - 64) true := by
                rw [← List.replicate_add]
                congr 1
                omega
              have hLHS : s.write_unary0 E n
                  = run_records E (run_records E s
                      (List.map WriteRecord.bit (List.replicate 64 true))).1
                      (List.map WriteRecord.bit (List.replicate (n - 64) true ++ [false])) := by
                rw [hstep, write_ones_eq E s 64 64 hInv (by omega), wres_eta _ hr1]
                simp only [andThen]
                exact ih (n - 64) (by omega) _ hr2
              have hRHS : run_records E s
                    (List.map WriteRecord.bit (List.replicate n true ++ [false]))
                  = run_records E (run_records E s
                      (List.map WriteRecord.bit (List.replicate 64 true))).1
                      (List.map WriteRecord.bit (List.replicate (n - 64) true ++ [false])) := by
                rw [hsplit, List.append_assoc, List.map_append, run_records_append,
                  wres_eta _ hr1]
                simp only [andThen]
              rw [hLHS, hRHS]

theorem run_bytes8_ok (E : Endianness) (buf : List Nat) : ∀ s : BitWriter, Inv s →
    (∀ b ∈ buf, b < 256) →
    (run_records E s (buf.map (fun b => WriteRecord.unsigned 8 8 b))).2 = none ∧
    Inv (run_records E s (buf.map (fun b => WriteRecord.unsigned 8 8 b))).1 ∧
    abs_len (run_records E s (buf.map (fun b => WriteRecord.unsigned 8 8 b))).1
      = abs_len s + 8 * buf.length ∧
    abs_val E (run_records E s (buf.map (fun b => WriteRecord.unsigned 8 8 b))).1
      = (match E with
         | .BE => abs_val .BE s * 2 ^ (8 * buf.length) + nat_of_bytes_be buf
         | .LE => abs_val .LE s + nat_of_bytes_le buf * 2 ^ abs_len s) := by
  induction buf with
  | nil =>
    intro s hInv _
    refine ⟨rfl, hInv, ?_, ?_⟩
    · simp [run_records]
    · cases E <;> simp [run_records, nat_of_bytes_be, nat_of_bytes_le]
  | cons b t ih =>
    intro s hInv hbuf
    have hb : b < 256 := hbuf b (by simp)
    obtain ⟨hw1, hw2, hw3, hw4⟩ := write_ok E s 8 8 b hInv (le_refl 8) (by norm_num; omega)
    simp only [List.map_cons, run_records, WriteRecord.playback]
    rw [wres_eta _ hw1]
    simp only [andThen]
    obtain ⟨ih1, ih2, ih3, ih4⟩ := ih (s.write E 8 8 b).1 hw2 (fun x hx => hbuf x (by simp [hx]))
    refine ⟨ih1, ih2, ?_, ?_⟩
    · rw [ih3, hw3]
      simp only [List.length_cons]
      omega
    · cases E with
      | BE =>
        dsimp only at ih4 hw4 ⊢
        rw [ih4, hw4]
        simp only [write_contrib, nat_of_bytes_be_cons, List.length_cons, pow_256_eq,
          Nat.mul_add, Nat.mul_one, pow_add]
        ring
      | LE =>
        dsimp only at ih4 hw4 ⊢
        rw [ih4, hw4, hw3]
        simp only [write_contrib, nat_of_bytes_le, List.length_cons, Nat.mul_add,
          Nat.mul_one, pow_add]
        norm_num
        ring

theorem write_bytes_aligned (E : Endianness) (s : BitWriter) (buf : List Nat)
    (hal : s.byte_aligned = true) :
    s.write_bytes E buf = (⟨s.out ++ buf, s.bitqueue⟩, none) := by
  simp [BitWriter.write_bytes, hal]

theorem write_bytes_loop_eq_run (E : Endianness) (buf : List Nat) : ∀ s : BitWriter,
    write_bytes_loop E s buf = run_records E s (buf.map (fun b => WriteRecord.unsigned 8 8 b)) := by
  induction buf with
  | nil => intro s; rfl
  | cons b t ih =>
    intro s
    simp only [write_bytes_loop, List.map_cons, run_records, WriteRecord.playback]
    cases hsw : s.write E 8 8 b with
    | mk s2 e => cases e <;> simp [andThen, ih]

theorem write_bytes_eq_run (E : Endianness) (s : BitWriter) (buf : List Nat)
    (hInv : Inv s) (hbuf : ∀ b ∈ buf, b < 256) :
    s.write_bytes E buf = run_records E s (buf.map (fun b => WriteRecord.unsigned 8 8 b)) := by
  by_cases hal : s.byte_aligned
  · rw [write_bytes_aligned E s buf hal]
    have hq : s.bitqueue.len = 0 := by
      simpa [BitWriter.byte_aligned, BitQueue.is_empty] using hal
    have hv0 : s.bitqueue.val = 0 := by
      have := hInv.2.1
      rw [hq] at this
      omega
    obtain ⟨hr1, hr2, hr3, hr4⟩ := run_bytes8_ok E buf s hInv hbuf
    have hInvd : Inv (⟨s.out ++ buf, s.bitqueue⟩ : BitWriter) := by
      refine ⟨hInv.1, hInv.2.1, ?_⟩
      intro x hx
      rcases List.mem_append.mp hx with hx | hx
      · exact hInv.2.2 x hx
      · exact hbuf x hx
    have hstate : (⟨s.out ++ buf, s.bitqueue⟩ : BitWriter)
        = (run_records E s (buf.map (fun b => WriteRecord.unsigned 8 8 b))).1 := by
      apply abs_inj E _ _ hInvd hr2
      · rw [hr3]
        simp only [abs_len, List.length_append, hq]
        ring
      · rw [hr4]
        cases E with
        | BE =>
          simp only [abs_val, nat_of_bytes_be_append, hq, hv0, pow_256_eq]
          norm_num
        | LE =>
          simp only [abs_val, nat_of_bytes_le_append, hq, hv0, abs_len, pow_256_eq,
            List.length_append]
          norm_num
          ring
    calc ((⟨s.out ++ buf, s.bitqueue⟩ : BitWriter), (none : Option WriteError))
        = ((run_records E s (buf.map (fun b => WriteRecord.unsigned 8 8 b))).1, none) := by
          rw [hstate]
      _ = run_records E s (buf.map (fun b => WriteRecord.unsigned 8 8 b)) :=
          (wres_eta _ hr1).symm
  · have : s.write_bytes E buf = write_bytes_loop E s buf := by
      simp [BitWriter.write_bytes, hal]
    rw [this, write_bytes_loop_eq_run]

theorem write_bytes_ok (E : Endianness) (s : BitWriter) (buf : List Nat)
    (hInv : Inv s) (hbuf : ∀ b ∈ buf, b < 256) :
    (s.write_bytes E buf).2 = none ∧ Inv (s.write_bytes E buf).1 ∧
    abs_len (s.write_bytes E buf).1 = abs_len s + 8 * buf.length := by
  rw [write_bytes_eq_run E s buf hInv hbuf]
  obtain ⟨h1, h2, h3, _⟩ := run_bytes8_ok E buf s hInv hbuf
  exact ⟨h1, h2, h3⟩

theorem op_lockstep (E : Endianness) (rec : WriteRecord) (s : BitWriter) (c : Nat)
    (hInv : Inv s) (hWF : rec.WF) (hc : c = abs_len s) :
    (counter_one E c rec).2 = (rec.playback E s).2 ∧
    Inv (rec.playback E s).1 ∧
    (counter_one E c rec).1 = abs_len (rec.playback E s).1 := by
  cases rec with
  | bit b =>
    obtain ⟨h1, h2, h3, _⟩ := write_bit_ok E s b hInv
    simp only [counter_one, WriteRecord.playback, BitCounter.write_bit]
    rw [h1, h3]
    exact ⟨rfl, h2, by omega⟩
  | unsigned w bits v =>
    simp only [WriteRecord.WF] at hWF
    simp only [counter_one, WriteRecord.playback]
    by_cases hbad : w < bits ∨ (bits < w ∧ 2 ^ bits ≤ v)
    · rw [write_err E s w bits v hbad, counter_write_err c w bits v hbad]
      exact ⟨rfl, hInv, hc⟩
    · have hno := not_or.mp hbad
      have hbw : bits ≤ w := by
        have := hno.1
        omega
      have hfit : v < 2 ^ bits := by
        by_cases hlt : bits < w
        · by_contra hh
          exact hno.2 ⟨hlt, by omega⟩
        · have hbe : bits = w := by omega
          rw [hbe]
          exact hWF
      obtain ⟨h1, h2, h3, _⟩ := write_ok E s w bits v hInv hbw hfit
      rw [h1, h3, counter_write_ok c w bits v hbad]
      exact ⟨rfl, h2, by omega⟩
  | signed w bits v =>
    simp only [counter_one, WriteRecord.playback]
    by_cases hbad : signed_invalid w bits v
    · rw [write_signed_err E s w bits v hbad, counter_write_signed_err E c w bits v hbad]
      exact ⟨rfl, hInv, hc⟩
    · obtain ⟨h1, h2, h3⟩ := write_signed_ok E s w bits v hInv hbad
      rw [h1, h3, counter_write_signed_ok E c w bits v hbad]
      exact ⟨rfl, h2, by omega⟩
  | bytes buf =>
    simp only [WriteRecord.WF] at hWF
    obtain ⟨h1, h2, h3⟩ := write_bytes_ok E s buf hInv hWF
    simp only [counter_one, WriteRecord.playback, BitCounter.write_bytes]
    rw [h1, h3]
    exact ⟨rfl, h2, by omega⟩

theorem run_lockstep (E : Endianness) (L : List WriteRecord) : ∀ (s : BitWriter) (c : Nat),
    Inv s → (∀ r ∈ L, r.WF) → c = abs_len s →
    (run_records_counter E c L).2 = (run_records E s L).2 ∧
    Inv (run_records E s L).1 ∧
    (run_records_counter E c L).1 = abs_len (run_records E s L).1 := by
  induction L with
  | nil =>
    intro s c hInv _ hc
    exact ⟨rfl, hInv, hc⟩
  | cons rec rest ih =>
    intro s c hInv hWF hc
    obtain ⟨h1, h2, h3⟩ := op_lockstep E rec s c hInv (hWF rec (by simp)) hc
    simp only [run_records, run_records_counter]
    cases hpb : rec.playback E s with
    | mk s2 e =>
      cases hco : counter_one E c rec with
      | mk c2 e2 =>
        rw [hpb] at h1 h2 h3
        rw [hco] at h1 h3
        simp only at h1 h2 h3
        cases e with
        | none =>
          subst h1
          rw [andThen_none, andThen_none]
          exact ih s2 c2 h2 (fun r hr => hWF r (by simp [hr])) h3
        | some err =>
          subst h1
          rw [andThen_some, andThen_some]
          exact ⟨rfl, h2, h3⟩

theorem wres_eta_some {σ : Type} (r : WResult σ) (e : WriteError) (h : r.2 = some e) :
    r = (r.1, some e) := by
  obtain ⟨a, e2⟩ := r
  simp only at h
  rw [h]

theorem write_bit_snd (E : Endianness) (s : BitWriter) (b : Bool) :
    (s.write_bit E b).2 = none := by
  simp only [BitWriter.write_bit]
  split <;> (split <;> rfl)

theorem write_isSome_iff (E : Endianness) (s : BitWriter) (w bits value : Nat) :
    (s.write E w bits value).2.isSome = true
      ↔ (w < bits ∨ (bits < w ∧ 2 ^ bits ≤ value)) := by
  constructor
  · intro h
    by_contra hbad
    rw [write_none E s w bits value hbad] at h
    simp at h
  · intro hbad
    rw [write_err E s w bits value hbad]
    rfl

theorem counter_write_isSome_iff (c : Nat) (w bits value : Nat) :
    (BitCounter.write c w bits value).2.isSome = true
      ↔ (w < bits ∨ (bits < w ∧ 2 ^ bits ≤ value)) := by
  constructor
  · intro h
    by_contra hbad
    rw [counter_write_ok c w bits value hbad] at h
    simp at h
  · intro hbad
    rw [counter_write_err c w bits value hbad]
    rfl

theorem signed_inner_ok (w bits : Nat) (v : Int) (hok : ¬ signed_invalid w bits v) :
    ¬ (w < bits - 1 ∨ (bits - 1 < w ∧ 2 ^ (bits - 1) ≤ twos_low bits v)) := by
  have hbw : bits ≤ w := by
    by_contra hh
    exact hok (Or.inl (by omega))
  have hfit := twos_low_lt bits v
  rintro (h | ⟨_, h⟩)
  · omega
  · omega

theorem write_signed_none (E : Endianness) (s : BitWriter) (w bits : Nat) (v : Int)
    (hok : ¬ signed_invalid w bits v) :
    (s.write_signed E w bits v).2 = none := by
  have hinner := signed_inner_ok w bits v hok
  cases E with
  | BE =>
    simp only [BitWriter.write_signed, if_neg hok]
    rw [wres_eta _ (write_bit_snd .BE s (decide (v < 0))), andThen_none]
    exact write_none _ _ _ _ _ hinner
  | LE =>
    simp only [BitWriter.write_signed, if_neg hok]
    rw [wres_eta _ (write_none .LE s w (bits - 1) (twos_low bits v) hinner), andThen_none]
    exact write_bit_snd .LE _ _

theorem write_signed_isSome_iff (E : Endianness) (s : BitWriter) (w bits : Nat) (v : Int) :
    (s.write_signed E w bits v).2.isSome = true ↔ signed_invalid w bits v := by
  constructor
  · intro h
    by_contra hbad
    rw [write_signed_none E s w bits v hbad] at h
    simp at h
  · intro hbad
    rw [write_signed_err E s w bits v hbad]
    rfl

theorem counter_write_signed_isSome_iff (E : Endianness) (c : Nat) (w bits : Nat) (v : Int) :
    (BitCounter.write_signed E c w bits v).2.isSome = true ↔ signed_invalid w bits v := by
  constructor
  · intro h
    by_contra hbad
    rw [counter_write_signed_ok E c w bits v hbad] at h
    simp at h
  · intro hbad
    rw [counter_write_signed_err E c w bits v hbad]
    rfl

theorem write_inv (E : Endianness) (s : BitWriter) (w bits value : Nat)
    (hInv : Inv s) (hv : value < 2 ^ w) : Inv (s.write E w bits value).1 := by
  by_cases hbad : w < bits ∨ (bits < w ∧ 2 ^ bits ≤ value)
  · rw [write_err E s w bits value hbad]
    exact hInv
  · have hno := not_or.mp hbad
    have hbw : bits ≤ w := by
      have := hno.1
      omega
    have hfit : value < 2 ^ bits := by
      by_cases hlt : bits < w
      · by_contra hh
        exact hno.2 ⟨hlt, by omega⟩
      · have hbe : bits = w := by omega
        rw [hbe]
        exact hv
    exact (write_ok E s w bits value hInv hbw hfit).2.1

theorem write_signed_inv (E : Endianness) (s : BitWriter) (w bits : Nat) (v : Int)
    (hInv : Inv s) : Inv (s.write_signed E w bits v).1 := by
  by_cases hbad : signed_invalid w bits v
  · rw [write_signed_err E s w bits v hbad]
    exact hInv
  · exact (write_signed_ok E s w bits v hInv hbad).2.1

theorem Inv_fresh : Inv BitWriter.fresh := by
  refine ⟨by simp [BitWriter.fresh], by simp [BitWriter.fresh], ?_⟩
  intro x hx
  simp [BitWriter.fresh] at hx

/-- Claim C1: for the backends that validate at call time (BitWriter and
BitCounter), a write of value of a w-bit unsigned type in bits bits
fails with the invalid-input error exactly when bits exceeds w, or bits
is below w and value is at least 2 to the bits; in every other case the
validation passes and the call succeeds (the modelled sink never
fails). -/
theorem c1_write_validation (E : Endianness) (s : BitWriter) (c : Nat)
    (w bits value : Nat) (hv : value < 2 ^ w) :
    ((s.write E w bits value).2.isSome = true
      ↔ (w < bits ∨ (bits < w ∧ 2 ^ bits ≤ value)))
    ∧ ((BitCounter.write c w bits value).2.isSome = true
      ↔ (w < bits ∨ (bits < w ∧ 2 ^ bits ≤ value)))
    ∧ ((s.write E w bits value).2 = none
      ↔ ¬ (w < bits ∨ (bits < w ∧ 2 ^ bits ≤ value))) := by
  refine ⟨write_isSome_iff E s w bits value, counter_write_isSome_iff c w bits value, ?_⟩
  constructor
  · intro h hbad
    rw [write_err E s w bits value hbad] at h
    simp at h
  · intro hbad
    exact write_none E s w bits value hbad

theorem c1_write_validation_witness :
    (7 : Nat) < 2 ^ 8
    ∧ (((BitWriter.fresh.write .BE 8 3 7).2.isSome = true
        ↔ (8 < 3 ∨ (3 < 8 ∧ 2 ^ 3 ≤ 7)))
      ∧ ((BitCounter.write 0 8 3 7).2.isSome = true
        ↔ (8 < 3 ∨ (3 < 8 ∧ 2 ^ 3 ≤ 7)))
      ∧ ((BitWriter.fresh.write .BE 8 3 7).2 = none
        ↔ ¬ (8 < 3 ∨ (3 < 8 ∧ 2 ^ 3 ≤ 7)))) :=
  ⟨by norm_num, c1_write_validation .BE BitWriter.fresh 0 8 3 7 (by norm_num)⟩

/-- Claim C5: on the counting backend every successful operation adds
exactly its nominal bit count to the running total: one for write_bit,
bits for write and for write_signed, eight per byte for write_bytes;
the counter rejects a write exactly when the direct backend does; and
byte_aligned holds exactly when the total is divisible by eight. -/
theorem c5_counter_totals (E : Endianness) (cbit cw cs cby ceq cal : Nat) (b : Bool)
    (w bits value ws bitss : Nat) (v : Int) (buf : List Nat) (s : BitWriter)
    (w2 bits2 value2 : Nat)
    (hok : ¬ (w < bits ∨ (bits < w ∧ 2 ^ bits ≤ value)))
    (hsok : ¬ signed_invalid ws bitss v) (hbs : 1 ≤ bitss) :
    BitCounter.write_bit cbit b = (cbit + 1, none)
    ∧ BitCounter.write cw w bits value = (cw + bits, none)
    ∧ BitCounter.write_signed E cs ws bitss v = (cs + bitss, none)
    ∧ BitCounter.write_bytes cby buf = (cby + 8 * buf.length, none)
    ∧ (BitCounter.write ceq w2 bits2 value2).2.isSome
        = (s.write E w2 bits2 value2).2.isSome
    ∧ (BitCounter.byte_aligned cal = true ↔ cal % 8 = 0) := by
  refine ⟨rfl, counter_write_ok cw w bits value hok, ?_, rfl, ?_, ?_⟩
  · rw [counter_write_signed_ok E cs ws bitss v hsok]
    have : cs + 1 + (bitss - 1) = cs + bitss := by omega
    rw [this]
  · by_cases hbad : w2 < bits2 ∨ (bits2 < w2 ∧ 2 ^ bits2 ≤ value2)
    · rw [counter_write_err ceq w2 bits2 value2 hbad, write_err E s w2 bits2 value2 hbad]
    · rw [counter_write_ok ceq w2 bits2 value2 hbad, write_none E s w2 bits2 value2 hbad]
  · simp [BitCounter.byte_aligned]

theorem c5_counter_totals_witness :
    (¬ (8 < 3 ∨ (3 < 8 ∧ 2 ^ 3 ≤ (5:Nat))) ∧ ¬ signed_invalid 8 4 (-3) ∧ (1:Nat) ≤ 4)
    ∧ (BitCounter.write_bit 2 true = (2 + 1, none)
      ∧ BitCounter.write 2 8 3 5 = (2 + 3, none)
      ∧ BitCounter.write_signed .BE 2 8 4 (-3) = (2 + 4, none)
      ∧ BitCounter.write_bytes 2 [9, 17] = (2 + 8 * [9, 17].length, none)
      ∧ (BitCounter.write 2 8 9 0).2.isSome = (BitWriter.fresh.write .BE 8 9 0).2.isSome
      ∧ (BitCounter.byte_aligned 16 = true ↔ 16 % 8 = 0)) :=
  ⟨⟨by decide, by decide, by decide⟩,
   c5_counter_totals .BE 2 2 2 2 2 16 true 8 3 5 8 4 (-3) [9, 17] BitWriter.fresh 8 9 0
     (by decide) (by decide) (by decide)⟩

/-- Claim C9: on the direct-sink backend, every operation of the write
contract leaves the partial-byte accumulator with strictly fewer than 8
bits and no garbage bits beyond its length (a completed byte is always
emitted within the call), and byte_aligned holds exactly when the
accumulator is empty. -/
theorem c9_accumulator_invariant (E : Endianness) (s1 s2 s3 s4 s5 t : BitWriter)
    (b : Bool) (w bits value ws bitss : Nat) (v : Int) (buf : List Nat)
    (h1 : Inv s1) (h2 : Inv s2) (h3 : Inv s3) (h4 : Inv s4) (h5 : Inv s5) (ht : Inv t)
    (hv : value < 2 ^ w) (hbuf : ∀ x ∈ buf, x < 256) :
    (Inv (s1.write_bit E b).1 ∧ (s1.write_bit E b).1.bitqueue.len < 8)
    ∧ (Inv (s2.write E w bits value).1 ∧ (s2.write E w bits value).1.bitqueue.len < 8)
    ∧ (Inv (s3.write_signed E ws bitss v).1
        ∧ (s3.write_signed E ws bitss v).1.bitqueue.len < 8)
    ∧ (Inv (s4.write_bytes E buf).1 ∧ (s4.write_bytes E buf).1.bitqueue.len < 8)
    ∧ (Inv (s5.byte_align E).1 ∧ (s5.byte_align E).1.bitqueue.len < 8)
    ∧ (t.byte_aligned = true ↔ t.bitqueue = ⟨0, 0⟩) := by
  have i1 := (write_bit_ok E s1 b h1).2.1
  have i2 := write_inv E s2 w bits value h2 hv
  have i3 := write_signed_inv E s3 ws bitss v h3
  have i4 := (write_bytes_ok E s4 buf h4 hbuf).2.1
  have i5 := (byte_align_ok E s5 h5).2.1
  refine ⟨⟨i1, i1.1⟩, ⟨i2, i2.1⟩, ⟨i3, i3.1⟩, ⟨i4, i4.1⟩, ⟨i5, i5.1⟩, ?_⟩
  constructor
  · intro hal
    have h0 : t.bitqueue.len = 0 := by
      simpa [BitWriter.byte_aligned, BitQueue.is_empty] using hal
    have hv0 : t.bitqueue.val = 0 := by
      have := ht.2.1
      rw [h0] at this
      omega
    have heta : t.bitqueue = ⟨t.bitqueue.len, t.bitqueue.val⟩ := rfl
    rw [heta, h0, hv0]
  · intro h
    simp [BitWriter.byte_aligned, BitQueue.is_empty, h]

theorem c9_accumulator_invariant_witness :
    (Inv BitWriter.fresh ∧ (5:Nat) < 2 ^ 8 ∧ (∀ x ∈ [255], x < 256))
    ∧ ((Inv (BitWriter.fresh.write_bit .LE true).1
        ∧ (BitWriter.fresh.write_bit .LE true).1.bitqueue.len < 8)
      ∧ (Inv (BitWriter.fresh.write .LE 8 3 5).1
        ∧ (BitWriter.fresh.write .LE 8 3 5).1.bitqueue.len < 8)
      ∧ (Inv (BitWriter.fresh.write_signed .LE 8 4 (-3)).1
        ∧ (BitWriter.fresh.write_signed .LE 8 4 (-3)).1.bitqueue.len < 8)
      ∧ (Inv (BitWriter.fresh.write_bytes .LE [255]).1
        ∧ (BitWriter.fresh.write_bytes .LE [255]).1.bitqueue.len < 8)
      ∧ (Inv (BitWriter.fresh.byte_align .LE).1
        ∧ (BitWriter.fresh.byte_align .LE).1.bitqueue.len < 8)
      ∧ (BitWriter.fresh.byte_aligned = true ↔ BitWriter.fresh.bitqueue = ⟨0, 0⟩)) :=
  ⟨⟨Inv_fresh, by norm_num, by decide⟩,
   c9_accumulator_invariant .LE BitWriter.fresh BitWriter.fresh BitWriter.fresh
     BitWriter.fresh BitWriter.fresh BitWriter.fresh true 8 3 5 8 4 (-3) [255]
     Inv_fresh Inv_fresh Inv_fresh Inv_fresh Inv_fresh Inv_fresh (by norm_num) (by decide)⟩

/-- Claim C10: when write or write_signed reports the invalid-input
error, the backend state is unchanged: the BitWriter keeps its sink
output and partial accumulator exactly as before and the BitCounter
total is not incremented, on both backends, because validation runs
before any mutation. -/
theorem c10_error_leaves_state_unchanged (E : Endianness) (s s2 : BitWriter)
    (c c2 : Nat) (w bits value w2 bits2 : Nat) (v2 : Int)
    (hw : (s.write E w bits value).2.isSome = true)
    (hs : (s2.write_signed E w2 bits2 v2).2.isSome = true) :
    s.write E w bits value = (s, some .invalidInput)
    ∧ BitCounter.write c w bits value = (c, some .invalidInput)
    ∧ s2.write_signed E w2 bits2 v2 = (s2, some .invalidInput)
    ∧ BitCounter.write_signed E c2 w2 bits2 v2 = (c2, some .invalidInput) := by
  have hbad := (write_isSome_iff E s w bits value).mp hw
  have hsbad := (write_signed_isSome_iff E s2 w2 bits2 v2).mp hs
  exact ⟨write_err E s w bits value hbad, counter_write_err c w bits value hbad,
    write_signed_err E s2 w2 bits2 v2 hsbad,
    counter_write_signed_err E c2 w2 bits2 v2 hsbad⟩

theorem c10_error_leaves_state_unchanged_witness :
    ((BitWriter.fresh.write .BE 8 9 0).2.isSome = true
      ∧ (BitWriter.fresh.write_signed .BE 8 5 100).2.isSome = true)
    ∧ (BitWriter.fresh.write .BE 8 9 0 = (BitWriter.fresh, some .invalidInput)
      ∧ BitCounter.write 3 8 9 0 = (3, some .invalidInput)
      ∧ BitWriter.fresh.write_signed .BE 8 5 100 = (BitWriter.fresh, some .invalidInput)
      ∧ BitCounter.write_signed .BE 3 8 5 100 = (3, some .invalidInput)) :=
  ⟨⟨by decide, by decide⟩,
   c10_error_leaves_state_unchanged .BE BitWriter.fresh BitWriter.fresh 3 3 8 9 0 8 5 100
     (by decide) (by decide)⟩

/-- Claim C8: disposing of a direct-sink writer through into_writer
returns the sink holding exactly the fully emitted bytes and discards
the pending partial-byte bits, without error; into_unwritten reports
exactly the discarded (length, value) pair, whose value fits its
length, and the pair is (0, 0) on a byte-aligned writer.  The packed
content of the writer splits into the disposed bytes plus the reported
pair. -/
theorem c8_disposal (E : Endianness) (s t : BitWriter) (hs : Inv s) (ht : Inv t)
    (hAl : t.byte_aligned = true) :
    s.into_writer = s.out
    ∧ s.into_unwritten = (s.bitqueue.len, s.bitqueue.val)
    ∧ abs_len s = 8 * s.into_writer.length + s.into_unwritten.1
    ∧ abs_val E s = (match E with
        | .BE => nat_of_bytes_be s.into_writer * 2 ^ s.into_unwritten.1
            + s.into_unwritten.2
        | .LE => nat_of_bytes_le s.into_writer
            + s.into_unwritten.2 * 2 ^ (8 * s.into_writer.length))
    ∧ s.into_unwritten.2 < 2 ^ s.into_unwritten.1
    ∧ t.into_unwritten = (0, 0) := by
  refine ⟨rfl, rfl, rfl, by cases E <;> rfl, hs.2.1, ?_⟩
  have h0 : t.bitqueue.len = 0 := by
    simpa [BitWriter.byte_aligned, BitQueue.is_empty] using hAl
  have hv0 : t.bitqueue.val = 0 := by
    have := ht.2.1
    rw [h0] at this
    omega
  simp [BitWriter.into_unwritten, h0, hv0]

theorem c8_disposal_witness :
    (Inv (⟨[1, 2], ⟨3, 5⟩⟩ : BitWriter) ∧ Inv BitWriter.fresh
      ∧ BitWriter.fresh.byte_aligned = true)
    ∧ ((⟨[1, 2], ⟨3, 5⟩⟩ : BitWriter).into_writer = [1, 2]
      ∧ (⟨[1, 2], ⟨3, 5⟩⟩ : BitWriter).into_unwritten = (3, 5)
      ∧ BitWriter.fresh.into_unwritten = (0, 0)) :=
  ⟨⟨by decide, Inv_fresh, by decide⟩, by
    have h := c8_disposal .BE (⟨[1, 2], ⟨3, 5⟩⟩ : BitWriter) BitWriter.fresh
      (by decide) Inv_fresh (by decide)
    exact ⟨h.1, h.2.1, h.2.2.2.2.2⟩⟩

/-- Claim C7: the recording backend performs no fit validation at
record time: write, write_bit, write_signed and write_bytes each append
one tagged record carrying exactly the given arguments, advance the
total by the nominal bit count and succeed, even for a bits and value
pair that fails validation elsewhere; the invalid-input error for such
a pair is raised only at playback, by the write method of the playback
target. -/
theorem c7_record_time_no_validation (E : Endianness) (r : BitRecorder)
    (w bits value ws bitss : Nat) (v : Int) (b : Bool) (buf : List Nat) (s : BitWriter)
    (hbad : w < bits ∨ (bits < w ∧ 2 ^ bits ≤ value)) :
    r.write w bits value = (⟨r.bits + bits, r.records ++ [.unsigned w bits value]⟩, none)
    ∧ r.write_bit b = (⟨r.bits + 1, r.records ++ [.bit b]⟩, none)
    ∧ r.write_signed ws bitss v = (⟨r.bits + bitss, r.records ++ [.signed ws bitss v]⟩, none)
    ∧ r.write_bytes buf = (⟨r.bits + 8 * buf.length, r.records ++ [.bytes buf]⟩, none)
    ∧ BitRecorder.playback E ⟨bits, [.unsigned w bits value]⟩ s
        = (s, some .invalidInput) := by
  refine ⟨rfl, rfl, rfl, rfl, ?_⟩
  rw [playback_eq_run]
  simp only
  rw [run_records_singleton]
  simp only [WriteRecord.playback]
  exact write_err E s w bits value hbad

theorem c7_record_time_no_validation_witness :
    (8 < 3 ∨ (3 < 8 ∧ 2 ^ 3 ≤ (12:Nat)))
    ∧ (BitRecorder.fresh.write 8 3 12
        = (⟨0 + 3, [] ++ [.unsigned 8 3 12]⟩, none)
      ∧ BitRecorder.fresh.write_bit true = (⟨0 + 1, [] ++ [.bit true]⟩, none)
      ∧ BitRecorder.fresh.write_signed 8 4 (-3) = (⟨0 + 4, [] ++ [.signed 8 4 (-3)]⟩, none)
      ∧ BitRecorder.fresh.write_bytes [9] = (⟨0 + 8 * [9].length, [] ++ [.bytes [9]]⟩, none)
      ∧ BitRecorder.playback .BE ⟨3, [.unsigned 8 3 12]⟩ BitWriter.fresh
          = (BitWriter.fresh, some .invalidInput)) :=
  ⟨by decide,
   c7_record_time_no_validation .BE BitRecorder.fresh 8 3 12 8 4 (-3) true [9]
     BitWriter.fresh (by decide)⟩

/-- Claim C2: recording a sequence of write calls logs exactly those
calls in order and never fails; playback replays the log in original
order through the write contract of the target, so playing a recorder
back onto a fresh direct-sink writer produces exactly the bytes of
performing the same calls directly, and two playbacks of the same
recorder agree; playback stops at the first failing record, propagating
its error, and the log, held behind an immutable reference, is neither
consumed nor cleared. -/
theorem c2_recorder_playback (E : Endianness) (L pre post : List WriteRecord)
    (r : WriteRecord) (w0 w1 wa : BitWriter)
    (hpre : run_records E w0 pre = (w1, none))
    (hfail : (r.playback E w1).2.isSome = true) :
    (record_all BitRecorder.fresh L).2 = none
    ∧ (record_all BitRecorder.fresh L).1.records = L
    ∧ BitRecorder.playback E (record_all BitRecorder.fresh L).1 wa = run_records E wa L
    ∧ (BitRecorder.playback E (record_all BitRecorder.fresh L).1 BitWriter.fresh).1.out
        = (run_records E BitWriter.fresh L).1.out
    ∧ run_records E w0 (pre ++ r :: post) = r.playback E w1 := by
  obtain ⟨ha1, ha2⟩ := record_all_ok L BitRecorder.fresh
  have hrecs : (record_all BitRecorder.fresh L).1.records = L := by
    rw [ha2]
    rfl
  have hplay : ∀ wb : BitWriter,
      BitRecorder.playback E (record_all BitRecorder.fresh L).1 wb = run_records E wb L := by
    intro wb
    rw [playback_eq_run, hrecs]
  refine ⟨ha1, hrecs, hplay wa, by rw [hplay BitWriter.fresh], ?_⟩
  rw [run_records_append, hpre, andThen_none]
  obtain ⟨e, he⟩ := Option.isSome_iff_exists.mp hfail
  simp only [run_records]
  rw [wres_eta_some _ e he, andThen_some]

theorem c2_recorder_playback_witness :
    (run_records .BE BitWriter.fresh [] = (BitWriter.fresh, none)
      ∧ ((WriteRecord.unsigned 8 9 0).playback .BE BitWriter.fresh).2.isSome = true)
    ∧ ((record_all BitRecorder.fresh [.bit true, .unsigned 8 3 5]).2 = none
      ∧ (record_all BitRecorder.fresh [.bit true, .unsigned 8 3 5]).1.records
          = [.bit true, .unsigned 8 3 5]
      ∧ BitRecorder.playback .BE
          (record_all BitRecorder.fresh [.bit true, .unsigned 8 3 5]).1 BitWriter.fresh
          = run_records .BE BitWriter.fresh [.bit true, .unsigned 8 3 5]
      ∧ (BitRecorder.playback .BE
          (record_all BitRecorder.fresh [.bit true, .unsigned 8 3 5]).1 BitWriter.fresh).1.out
          = (run_records .BE BitWriter.fresh [.bit true, .unsigned 8 3 5]).1.out
      ∧ run_records .BE BitWriter.fresh ([] ++ WriteRecord.unsigned 8 9 0 :: [.bit false])
          = (WriteRecord.unsigned 8 9 0).playback .BE BitWriter.fresh) := by
  have h := c2_recorder_playback .BE [.bit true, .unsigned 8 3 5] [] [.bit false]
    (.unsigned 8 9 0) BitWriter.fresh BitWriter.fresh BitWriter.fresh rfl (by decide)
  exact ⟨⟨rfl, by decide⟩, h⟩

/-- Claim C3: write_unary0 of n writes exactly n one-bits followed by
one terminating zero-bit, observationally equivalent to n write_bit
calls with true followed by one write_bit with false, for every n
including the chunked case above 64; on a fresh MSB-first writer the
calls 0, 3, 10 yield the bytes 01110111 and 11111110, and LSB-first
yield 11101110 and 01111111. -/
theorem c3_write_unary0 (E : Endianness) (s : BitWriter) (n : Nat) (hInv : Inv s) :
    s.write_unary0 E n
      = run_records E s ((List.replicate n true ++ [false]).map WriteRecord.bit)
    ∧ ((((BitWriter.fresh.write_unary0 .BE 0).1.write_unary0 .BE 3).1.write_unary0
        .BE 10).1).out = [0b01110111, 0b11111110]
    ∧ ((((BitWriter.fresh.write_unary0 .LE 0).1.write_unary0 .LE 3).1.write_unary0
        .LE 10).1).out = [0b11101110, 0b01111111] := by
  refine ⟨write_unary0_eq E n s hInv, ?_, ?_⟩
  · rw [write_unary0_eq .BE 0 BitWriter.fresh Inv_fresh]
    rw [write_unary0_eq .BE 3 _ (by decide)]
    rw [write_unary0_eq .BE 10 _ (by decide)]
    decide
  · rw [write_unary0_eq .LE 0 BitWriter.fresh Inv_fresh]
    rw [write_unary0_eq .LE 3 _ (by decide)]
    rw [write_unary0_eq .LE 10 _ (by decide)]
    decide

theorem c3_write_unary0_witness :
    Inv BitWriter.fresh
    ∧ (BitWriter.fresh.write_unary0 .BE 70
      = run_records .BE BitWriter.fresh
          ((List.replicate 70 true ++ [false]).map WriteRecord.bit)) :=
  ⟨Inv_fresh, (c3_write_unary0 .BE BitWriter.fresh 70 Inv_fresh).1⟩

/-- Claim C4: write_bytes on the direct-sink backend is observationally
the same as writing each byte through write with eight bits: on a
byte-aligned writer the whole buffer is forwarded to the sink in one
call, on a misaligned writer each byte goes through the per-byte loop,
and at any starting alignment the final state equals the per-byte
interpretation of the same buffer. -/
theorem c4_write_bytes (E : Endianness) (s t u : BitWriter) (buf : List Nat)
    (hInv : Inv s) (hbuf : ∀ b ∈ buf, b < 256) (hInvT : Inv t)
    (hAl : t.byte_aligned = true) (hNAl : u.byte_aligned = false) :
    s.write_bytes E buf = run_records E s (buf.map (fun b => WriteRecord.unsigned 8 8 b))
    ∧ t.write_bytes E buf = (⟨t.out ++ buf, t.bitqueue⟩, none)
    ∧ u.write_bytes E buf = write_bytes_loop E u buf := by
  refine ⟨write_bytes_eq_run E s buf hInv hbuf, write_bytes_aligned E t buf hAl, ?_⟩
  simp [BitWriter.write_bytes, hNAl]

theorem c4_write_bytes_witness :
    (Inv (⟨[], ⟨1, 1⟩⟩ : BitWriter) ∧ (∀ b ∈ [3, 250], b < 256) ∧ Inv BitWriter.fresh
      ∧ BitWriter.fresh.byte_aligned = true
      ∧ (⟨[], ⟨1, 1⟩⟩ : BitWriter).byte_aligned = false)
    ∧ ((⟨[], ⟨1, 1⟩⟩ : BitWriter).write_bytes .BE [3, 250]
        = run_records .BE (⟨[], ⟨1, 1⟩⟩ : BitWriter)
            ([3, 250].map (fun b => WriteRecord.unsigned 8 8 b))
      ∧ BitWriter.fresh.write_bytes .BE [3, 250]
        = (⟨BitWriter.fresh.out ++ [3, 250], BitWriter.fresh.bitqueue⟩, none)
      ∧ (⟨[], ⟨1, 1⟩⟩ : BitWriter).write_bytes .BE [3, 250]
        = write_bytes_loop .BE (⟨[], ⟨1, 1⟩⟩ : BitWriter) [3, 250]) :=
  ⟨⟨by decide, by decide, Inv_fresh, by decide, by decide⟩,
   c4_write_bytes .BE (⟨[], ⟨1, 1⟩⟩ : BitWriter) BitWriter.fresh
     (⟨[], ⟨1, 1⟩⟩ : BitWriter) [3, 250] (by decide) (by decide) Inv_fresh
     (by decide) (by decide)⟩

/-- Claim C6: a counting backend and a direct-sink backend given the
identical call sequence behave in lockstep: they fail at the same
record or both succeed, the final counter total equals the number of
bits held by the direct writer (emitted bytes plus pending bits), and
after draining both with byte_align the total equals exactly eight
times the number of bytes the direct backend emitted, the bit count
rounded up to whole bytes. -/
theorem c6_counter_equals_direct (E : Endianness) (L : List WriteRecord)
    (hWF : ∀ r ∈ L, r.WF) :
    (run_records_counter E 0 L).2 = (run_records E BitWriter.fresh L).2
    ∧ (run_records_counter E 0 L).1
        = 8 * (run_records E BitWriter.fresh L).1.out.length
          + (run_records E BitWriter.fresh L).1.bitqueue.len
    ∧ (BitCounter.byte_align (run_records_counter E 0 L).1).1
        = 8 * ((run_records E BitWriter.fresh L).1.byte_align E).1.out.length := by
  obtain ⟨h1, h2, h3⟩ := run_lockstep E L BitWriter.fresh 0 Inv_fresh hWF rfl
  refine ⟨h1, h3, ?_⟩
  obtain ⟨hb1, hb2, hb3, hb4⟩ := byte_align_ok E (run_records E BitWriter.fresh L).1 h2
  rw [counter_byte_align]
  have hlt := h2.1
  simp only [abs_len, hb3, Nat.add_zero] at hb4 h3
  simp only
  omega

theorem c6_counter_equals_direct_witness :
    (∀ r ∈ ([.bit true, .unsigned 8 3 5, .bytes [7], .signed 8 4 (-3)] :
        List WriteRecord), r.WF)
    ∧ ((run_records_counter .BE 0 [.bit true, .unsigned 8 3 5, .bytes [7], .signed 8 4 (-3)]).2
        = (run_records .BE BitWriter.fresh
            [.bit true, .unsigned 8 3 5, .bytes [7], .signed 8 4 (-3)]).2
      ∧ (run_records_counter .BE 0 [.bit true, .unsigned 8 3 5, .bytes [7], .signed 8 4 (-3)]).1
        = 8 * (run_records .BE BitWriter.fresh
            [.bit true, .unsigned 8 3 5, .bytes [7], .signed 8 4 (-3)]).1.out.length
          + (run_records .BE BitWriter.fresh
            [.bit true, .unsigned 8 3 5, .bytes [7], .signed 8 4 (-3)]).1.bitqueue.len
      ∧ (BitCounter.byte_align (run_records_counter .BE 0
            [.bit true, .unsigned 8 3 5, .bytes [7], .signed 8 4 (-3)]).1).1
        = 8 * ((run_records .BE BitWriter.fresh
            [.bit true, .unsigned 8 3 5, .bytes [7], .signed 8 4 (-3)]).1.byte_align .BE).1.out.length) :=
  ⟨by decide,
   c6_counter_equals_direct .BE [.bit true, .unsigned 8 3 5, .bytes [7], .signed 8 4 (-3)]
     (by decide)⟩

end Bitstream

